import Mathlib

/-
  Verification of the graph batching / partitioning core (graph_op.cc).

  The development shallowly embeds the operations of `GraphOp`:
  line-graph construction, disjoint union and partitioning over the
  mutable adjacency-list graph and over the immutable CSR graph, the
  parent-to-subgraph id lookup, and id-range expansion.  Machine ids
  (dgl_id_t, an unsigned 64-bit integer) are modelled as unbounded
  naturals; the int64 reader view of an output buffer is recovered by
  an explicit reinterpretation function where a signed sentinel matters.
-/

set_option maxHeartbeats 1000000

/-- Replace the element at index `n` by `f` of itself (identity when the
index is out of range); models in-place mutation of one vector slot. -/
def listModify {α : Type} (f : α → α) : Nat → List α → List α
  | _, [] => []
  | 0, a :: t => f a :: t
  | n+1, a :: t => a :: listModify f n t

/-- Modelled from the spec: the per-vertex entry list of the mutable
graph, two parallel arrays holding successor vertices and edge ids
(`adjlist_[v].succ` / `adjlist_[v].edge_id`).  The mutable graph class
itself is declared outside this core. -/
structure EdgeList where
  succ : List Nat
  edge_id : List Nat
deriving Repr, DecidableEq

/-- Modelled from the spec: the mutable adjacency-list graph storage —
forward and reverse per-vertex lists plus the edge-id-indexed parallel
source/destination arrays. -/
structure Graph where
  adjlist_ : List EdgeList
  reverse_adjlist_ : List EdgeList
  all_edges_src_ : List Nat
  all_edges_dst_ : List Nat
deriving Repr, DecidableEq

def Graph.NumVertices (g : Graph) : Nat := g.adjlist_.length

def Graph.NumEdges (g : Graph) : Nat := g.all_edges_src_.length

def Graph.empty : Graph := ⟨[], [], [], []⟩

/-- Modelled from the spec: append-only vertex growth — `AddVertices`
appends `n` fresh vertices with empty adjacency entry lists. -/
def Graph.AddVertices (g : Graph) (n : Nat) : Graph :=
  ⟨g.adjlist_ ++ List.replicate n ⟨[], []⟩,
   g.reverse_adjlist_ ++ List.replicate n ⟨[], []⟩,
   g.all_edges_src_, g.all_edges_dst_⟩

def EdgeList.push (el : EdgeList) (v e : Nat) : EdgeList :=
  ⟨el.succ ++ [v], el.edge_id ++ [e]⟩

/-- Modelled from the spec: append-only edge insertion with auto-assigned
sequential edge ids — the new edge id is the current edge count, the pair
is recorded in the forward list of `u`, the reverse list of `v`, and the
parallel source/destination arrays. -/
def Graph.AddEdge (g : Graph) (u v : Nat) : Graph :=
  ⟨listModify (fun el => el.push v g.NumEdges) u g.adjlist_,
   listModify (fun el => el.push u g.NumEdges) v g.reverse_adjlist_,
   g.all_edges_src_ ++ [u], g.all_edges_dst_ ++ [v]⟩

def Graph.addEdges (g : Graph) (es : List (Nat × Nat)) : Graph :=
  es.foldl (fun g e => g.AddEdge e.1 e.2) g

/-- A graph built from scratch through the append-only interface. -/
def buildGraph (n : Nat) (es : List (Nat × Nat)) : Graph :=
  (Graph.empty.AddVertices n).addEdges es

/-- The edge-id-indexed edge list of a graph (source, destination pairs). -/
def Graph.edges (g : Graph) : List (Nat × Nat) :=
  g.all_edges_src_.zip g.all_edges_dst_

def edgesInRange (n : Nat) (es : List (Nat × Nat)) : Prop :=
  ∀ e ∈ es, e.1 < n ∧ e.2 < n

instance (n : Nat) (es : List (Nat × Nat)) : Decidable (edgesInRange n es) :=
  inferInstanceAs (Decidable (∀ e ∈ es, e.1 < n ∧ e.2 < n))

/-- A well-formed mutable graph is one reachable through the append-only
construction interface: it equals the graph rebuilt from its own
edge-id-ordered edge list, and every endpoint is a valid vertex id. -/
def Graph.WellFormed (g : Graph) : Prop :=
  g = buildGraph g.NumVertices g.edges ∧ edgesInRange g.NumVertices g.edges

instance (g : Graph) : Decidable g.WellFormed :=
  inferInstanceAs (Decidable
    (g = buildGraph g.NumVertices g.edges ∧ edgesInRange g.NumVertices g.edges))

/-- The entry list of vertex `u` (empty when out of range). -/
def adjAt (g : Graph) (u : Nat) : EdgeList := g.adjlist_.getD u ⟨[], []⟩

/-- The reverse entry list of vertex `u` (empty when out of range). -/
def revAt (g : Graph) (u : Nat) : EdgeList := g.reverse_adjlist_.getD u ⟨[], []⟩

def EdgeList.pairs (el : EdgeList) : List (Nat × Nat) := el.succ.zip el.edge_id

/-! ### GraphOp on the mutable graph -/

/-- Per-edge inner loop of `GraphOp::LineGraph`, with `i0` the id of the
first remaining edge: for edge `(u, v)` with id `i`, every entry
`(w, j)` of `adjlist_[v]` contributes the line-graph edge `(i, j)`
unless backtracking is disabled and `w = u`. -/
def lineGraphEdgesFrom (g : Graph) (backtracking : Bool) :
    Nat → List (Nat × Nat) → List (Nat × Nat)
  | _, [] => []
  | i0, (u, v) :: rest =>
      ((adjAt g v).pairs.filterMap
        (fun q => if backtracking || (!backtracking && decide (q.1 ≠ u))
                  then some (i0, q.2) else none))
        ++ lineGraphEdgesFrom g backtracking (i0 + 1) rest

def lineGraphEdges (g : Graph) (backtracking : Bool) : List (Nat × Nat) :=
  lineGraphEdgesFrom g backtracking 0 g.edges

/-- Embedding of `GraphOp::LineGraph`: one vertex per edge of `g`; edges added by the
doubly nested loop over edges of `g` and out-entries of each edge's
destination. -/
def LineGraph (g : Graph) (backtracking : Bool) : Graph :=
  (Graph.empty.AddVertices g.NumEdges).addEdges (lineGraphEdges g backtracking)

def shiftEdges (c : Nat) (es : List (Nat × Nat)) : List (Nat × Nat) :=
  es.map (fun e => (e.1 + c, e.2 + c))

/-- Loop body chain of `GraphOp::DisjointUnion` (mutable): add the
vertices of each graph, re-insert its edges shifted by the running
vertex count `cumsum`. -/
def disjointUnionAux : Graph → Nat → List Graph → Graph
  | rst, _, [] => rst
  | rst, cumsum, gr :: rest =>
      disjointUnionAux
        ((rst.AddVertices gr.NumVertices).addEdges (shiftEdges cumsum gr.edges))
        (cumsum + gr.NumVertices) rest

/-- Embedding of `GraphOp::DisjointUnion(std::vector<const Graph*>)`. -/
def DisjointUnion (graphs : List Graph) : Graph :=
  disjointUnionAux Graph.empty 0 graphs

def EdgeList.offsetDown (node_offset edge_offset : Nat) (el : EdgeList) : EdgeList :=
  ⟨el.succ.map (fun x => x - node_offset), el.edge_id.map (fun x => x - edge_offset)⟩

/-- Number of adjacency entries inside the vertex block
`[node_offset, node_offset + size)` — the partition's edge count. -/
def partitionNumEdges (graph : Graph) (node_offset size : Nat) : Nat :=
  ((((graph.adjlist_.drop node_offset).take size)).map
    (fun el => el.succ.length)).sum

/-- One output graph of `GraphOp::DisjointPartitionBySizes` (mutable):
copy the adjacency slices, relabel successor / edge ids downward by the
offsets, and copy the matching span of the source/destination arrays. -/
def partitionPiece (graph : Graph) (node_offset edge_offset size : Nat) : Graph :=
  let adj := ((graph.adjlist_.drop node_offset).take size).map
      (EdgeList.offsetDown node_offset edge_offset)
  let radj := ((graph.reverse_adjlist_.drop node_offset).take size).map
      (EdgeList.offsetDown node_offset edge_offset)
  let num_edges := partitionNumEdges graph node_offset size
  ⟨adj, radj,
   ((graph.all_edges_src_.drop edge_offset).take num_edges).map (fun x => x - node_offset),
   ((graph.all_edges_dst_.drop edge_offset).take num_edges).map (fun x => x - node_offset)⟩

def partitionAux (graph : Graph) : Nat → Nat → List Nat → List Graph
  | _, _, [] => []
  | node_offset, edge_offset, s :: rest =>
      partitionPiece graph node_offset edge_offset s ::
      partitionAux graph (node_offset + s)
        (edge_offset + partitionNumEdges graph node_offset s) rest

/-- Embedding of `GraphOp::DisjointPartitionBySizes(const Graph*, IdArray)`: check the
size sum, then emit the partition pieces at cumulative offsets. -/
def DisjointPartitionBySizes (graph : Graph) (sizes : List Nat) :
    Except String (List Graph) :=
  if sizes.sum = graph.NumVertices
  then Except.ok (partitionAux graph 0 0 sizes)
  else Except.error "Sum of the given sizes must equal to the number of nodes."

/-- Embedding of `GraphOp::DisjointPartitionByNum(const Graph*, int64_t)`. -/
def DisjointPartitionByNum (graph : Graph) (num : Nat) :
    Except String (List Graph) :=
  if num ≠ 0 ∧ graph.NumVertices % num = 0
  then DisjointPartitionBySizes graph
    (List.replicate num (graph.NumVertices / num))
  else Except.error "Number of partitions must evenly divide the number of nodes."

/-! ### GraphOp on the immutable CSR graph -/

/-- Embedding of `std::is_sorted`: no adjacent descending pair. -/
def isSortedB : List Nat → Bool
  | [] => true
  | [_] => true
  | a :: b :: t => a ≤ b && isSortedB (b :: t)

/-- Modelled from the spec: the immutable CSR storage — `indptr`
(length `N+1`, non-decreasing, leading 0), flat neighbor array
`indices`, parallel original-edge-id array `edge_ids`.  The CSR class
itself is declared outside this core. -/
structure CSR where
  indptr : List Nat
  indices : List Nat
  edge_ids : List Nat
deriving Repr, DecidableEq

def CSR.NumVertices (c : CSR) : Nat := c.indptr.length - 1

def CSR.NumEdges (c : CSR) : Nat := c.indices.length

def CSR.WellFormed (c : CSR) : Prop :=
  c.indptr.getD 0 0 = 0 ∧ c.indptr ≠ [] ∧ isSortedB c.indptr = true ∧
  c.indices.length = c.indptr.getD (c.indptr.length - 1) 0 ∧
  c.edge_ids.length = c.indices.length

instance (c : CSR) : Decidable c.WellFormed :=
  inferInstanceAs (Decidable
    (c.indptr.getD 0 0 = 0 ∧ c.indptr ≠ [] ∧ isSortedB c.indptr = true ∧
     c.indices.length = c.indptr.getD (c.indptr.length - 1) 0 ∧
     c.edge_ids.length = c.indices.length))

/-- Loop body chain of `GraphOp::DisjointUnion` over immutable graphs:
the tails of the three output arrays contributed by the remaining
graphs, given the vertex / edge counts accumulated so far. -/
def csrUnionParts : Nat → Nat → List CSR → List Nat × List Nat × List Nat
  | _, _, [] => ([], [], [])
  | cum_num_nodes, cum_num_edges, g :: rest =>
      let p := csrUnionParts (cum_num_nodes + g.NumVertices)
                 (cum_num_edges + g.NumEdges) rest
      ((g.indptr.drop 1).map (fun x => x + cum_num_edges) ++ p.1,
       g.indices.map (fun x => x + cum_num_nodes) ++ p.2.1,
       g.edge_ids.map (fun x => x + cum_num_edges) ++ p.2.2)

/-- Embedding of `GraphOp::DisjointUnion(std::vector<const ImmutableGraph*>)`: the
batched incoming CSR, a global leading 0 followed by each graph's
shifted `indptr[1:]`, with shifted `indices` and `edge_ids`. -/
def DisjointUnionCSR (graphs : List CSR) : CSR :=
  let p := csrUnionParts 0 0 graphs
  ⟨0 :: p.1, p.2.1, p.2.2⟩

/-- One output CSR of `GraphOp::DisjointPartitionBySizes` (immutable):
partition `i` spans vertex range `[start, start + size)` and copies the
matching `indptr` / `indices` / `edge_ids` spans, shifted down. -/
def csrPartitionPiece (bg : CSR) (start size cum_sum_edges : Nat) : CSR :=
  let s := bg.indptr.getD start 0
  let e := bg.indptr.getD (start + size) 0
  ⟨0 :: (List.range size).map (fun l => bg.indptr.getD (start + (l + 1)) 0 - s),
   ((bg.indices.drop s).take (e - s)).map (fun x => x - start),
   ((bg.edge_ids.drop s).take (e - s)).map (fun x => x - cum_sum_edges)⟩

def csrPartitionAux (bg : CSR) : Nat → Nat → List Nat → List CSR
  | _, _, [] => []
  | start, cum_sum_edges, sz :: rest =>
      csrPartitionPiece bg start sz cum_sum_edges ::
      csrPartitionAux bg (start + sz)
        (cum_sum_edges + (bg.indptr.getD (start + sz) 0 - bg.indptr.getD start 0)) rest

/-- Embedding of `GraphOp::DisjointPartitionBySizes(const ImmutableGraph*, IdArray)`. -/
def DisjointPartitionBySizesCSR (bg : CSR) (sizes : List Nat) :
    Except String (List CSR) :=
  if sizes.sum = bg.NumVertices
  then Except.ok (csrPartitionAux bg 0 0 sizes)
  else Except.error "Sum of the given sizes must equal to the number of nodes."

/-- Embedding of `GraphOp::DisjointPartitionByNum(const ImmutableGraph*, int64_t)`. -/
def DisjointPartitionByNumCSR (bg : CSR) (num : Nat) :
    Except String (List CSR) :=
  if num ≠ 0 ∧ bg.NumVertices % num = 0
  then DisjointPartitionBySizesCSR bg
    (List.replicate num (bg.NumVertices / num))
  else Except.error "Number of partitions must evenly divide the number of nodes."

/-! ### TypedArray boundary, id lookup and id expansion -/

def kDLCPU : Nat := 1
def kDLGPU : Nat := 2
def kDLInt : Nat := 0

/-- Modelled from the spec: the 1-D integer array value type exchanged at
operation boundaries (device tag, rank, dtype tag / width, payload).
Ids are stored through the unsigned 64-bit `dgl_id_t` view. -/
structure TypedArray where
  device_type : Nat
  ndim : Nat
  dtype_code : Nat
  dtype_bits : Nat
  data : List Nat
deriving Repr, DecidableEq

/-- Embedding of `IsValidIdArray`: host-resident, one-dimensional, signed-integer
dtype, 64 bits wide. -/
def IsValidIdArray (arr : TypedArray) : Bool :=
  arr.device_type = kDLCPU && arr.ndim = 1
    && arr.dtype_code = kDLInt && arr.dtype_bits = 64

/-- The int64 reader view of an unsigned 64-bit cell. -/
def asInt64 (x : Nat) : Int :=
  if x < 2 ^ 63 then (x : Int) else (x : Int) - 2 ^ 64

/-- The unsigned sentinel written by storing `-1` into a `dgl_id_t` slot. -/
def U64NEG1 : Nat := 2 ^ 64 - 1

/-- Embedding of `std::find` over the parent array, returning the index of the first
occurrence; `i` is the index of the first remaining element. -/
def scanFind (i : Nat) : List Nat → Nat → Option Nat
  | [], _ => none
  | a :: t, x => if a = x then some i else scanFind (i + 1) t x

/-- The `unordered_map` built by the hash path: inserting position `i`
for each id in order, a later occurrence overwriting an earlier one. -/
def buildMapAux (i : Nat) (m : Nat → Option Nat) : List Nat → Nat → Option Nat
  | [] => m
  | a :: t => buildMapAux (i + 1) (fun x => if x = a then some i else m x) t

/-- The scan-based strategy of `GraphOp::MapParentIdToSubgraphId`. -/
def scanStrategy (parent query : List Nat) : List Nat :=
  query.map (fun id =>
    match scanFind 0 parent id with
    | some j => j
    | none => U64NEG1)

/-- The hash-map-based strategy of `GraphOp::MapParentIdToSubgraphId`. -/
def hashStrategy (parent query : List Nat) : List Nat :=
  let m := buildMapAux 0 (fun _ => none) parent
  query.map (fun id =>
    match m id with
    | some j => j
    | none => U64NEG1)

/-- Core of `GraphOp::MapParentIdToSubgraphId`: dispatch on sortedness of
the parent array. -/
def MapParentIdToSubgraphIdCore (parent query : List Nat) : List Nat :=
  if isSortedB parent then scanStrategy parent query
  else hashStrategy parent query

/-- Embedding of `GraphOp::MapParentIdToSubgraphId` at the array boundary: both arrays
are validated before any computation. -/
def MapParentIdToSubgraphId (parent_vids query : TypedArray) :
    Except String TypedArray :=
  if IsValidIdArray parent_vids then
    if IsValidIdArray query then
      Except.ok ⟨kDLCPU, 1, kDLInt, 64,
        MapParentIdToSubgraphIdCore parent_vids.data query.data⟩
    else Except.error "Invalid query id array."
  else Except.error "Invalid parent id array."

/-- Core of `GraphOp::ExpandIds`: allocate `offset[last]` output slots and
write `ids[i]` into slots `offset[i] + j` for `j < offset[i+1] - offset[i]`. -/
def ExpandIdsCore (ids offset : List Nat) : List Nat :=
  let len := offset.getD (offset.length - 1) 0
  (List.range ids.length).foldl (fun rst i =>
    (List.range (offset.getD (i + 1) 0 - offset.getD i 0)).foldl
      (fun rst j => rst.set (offset.getD i 0 + j) (ids.getD i 0)) rst)
    (List.replicate len 0)

/-- Embedding of `GraphOp::ExpandIds` at the array boundary: the only check is the
length relation between the two arrays. -/
def ExpandIds (ids offset : TypedArray) : Except String TypedArray :=
  if ids.data.length + 1 = offset.data.length
  then Except.ok ⟨kDLCPU, 1, kDLInt, 64, ExpandIdsCore ids.data offset.data⟩
  else Except.error "Offset array must be one longer than the id array."

/-! ### Basic list lemmas -/

theorem length_listModify {α : Type} (f : α → α) (n : Nat) (l : List α) :
    (listModify f n l).length = l.length := by
  induction l generalizing n with
  | nil => simp [listModify]
  | cons a t ih =>
    cases n with
    | zero => rfl
    | succ m => simpa [listModify] using ih m

theorem listModify_of_ge {α : Type} (f : α → α) (n : Nat) (l : List α)
    (h : l.length ≤ n) : listModify f n l = l := by
  induction l generalizing n with
  | nil => simp [listModify]
  | cons a t ih =>
    cases n with
    | zero => exact absurd h (by simp)
    | succ m => simp [listModify, ih m (by simpa using h)]

theorem getD_listModify_self {α : Type} (f : α → α) (n : Nat) (l : List α) (d : α)
    (h : n < l.length) : (listModify f n l).getD n d = f (l.getD n d) := by
  induction l generalizing n with
  | nil => simp at h
  | cons a t ih =>
    cases n with
    | zero => simp [listModify]
    | succ m => simpa [listModify] using ih m (by simpa using h)

theorem getD_listModify_ne {α : Type} (f : α → α) (n m : Nat) (l : List α) (d : α)
    (h : m ≠ n) : (listModify f n l).getD m d = l.getD m d := by
  induction l generalizing n m with
  | nil => simp [listModify]
  | cons a t ih =>
    cases n with
    | zero =>
      cases m with
      | zero => exact absurd rfl h
      | succ k => simp [listModify]
    | succ n' =>
      cases m with
      | zero => simp [listModify]
      | succ k => simpa [listModify] using ih n' k (fun hc => h (by rw [hc]))

theorem listModify_append_left {α : Type} (f : α → α) (n : Nat) (l l2 : List α)
    (h : n < l.length) : listModify f n (l ++ l2) = listModify f n l ++ l2 := by
  induction l generalizing n with
  | nil => simp at h
  | cons a t ih =>
    cases n with
    | zero => simp [listModify]
    | succ m => simp [listModify, ih m (by simpa using h)]

theorem getD_append_left' {α : Type} (l l2 : List α) (n : Nat) (d : α)
    (h : n < l.length) : (l ++ l2).getD n d = l.getD n d := by
  induction l generalizing n with
  | nil => simp at h
  | cons a t ih =>
    cases n with
    | zero => rfl
    | succ m => simpa using ih m (by simpa using h)

theorem getD_append_right' {α : Type} (l l2 : List α) (n : Nat) (d : α)
    (h : l.length ≤ n) : (l ++ l2).getD n d = l2.getD (n - l.length) d := by
  induction l generalizing n with
  | nil => simp
  | cons a t ih =>
    cases n with
    | zero => exact absurd h (by simp)
    | succ m => simpa using ih m (by simpa using h)

theorem getD_drop' {α : Type} (l : List α) (a i : Nat) (d : α) :
    (l.drop a).getD i d = l.getD (a + i) d := by
  induction a generalizing l with
  | zero => simp
  | succ m ih =>
    cases l with
    | nil => simp
    | cons x t => simpa [Nat.succ_add] using ih t

theorem getD_take' {α : Type} (l : List α) (b i : Nat) (d : α)
    (h : i < b) : (l.take b).getD i d = l.getD i d := by
  induction l generalizing b i with
  | nil => simp
  | cons x t ih =>
    cases b with
    | zero => simp at h
    | succ m =>
      cases i with
      | zero => rfl
      | succ k => simpa using ih m k (by omega)

theorem getD_map' {α β : Type} (f : α → β) (l : List α) (i : Nat) (d : α) :
    (l.map f).getD i (f d) = f (l.getD i d) := by
  induction l generalizing i with
  | nil => simp
  | cons x t ih =>
    cases i with
    | zero => rfl
    | succ k => simpa using ih k

theorem getD_range' (n i : Nat) (h : i < n) : (List.range n).getD i 0 = i := by
  have : (List.range n).getD i 0 = (List.range n).get ⟨i, by simpa using h⟩ := by
    rw [List.getD_eq_getElem?_getD, List.getElem?_eq_getElem (by simpa using h)]
    rfl
  rw [this]
  simp

theorem listExtGetD {α : Type} (d : α) (l1 l2 : List α)
    (hlen : l1.length = l2.length)
    (h : ∀ i, i < l1.length → l1.getD i d = l2.getD i d) : l1 = l2 := by
  induction l1 generalizing l2 with
  | nil => cases l2 with
    | nil => rfl
    | cons b t2 => simp at hlen
  | cons a t1 ih =>
    cases l2 with
    | nil => simp at hlen
    | cons b t2 =>
      have h0 : a = b := h 0 (by simp)
      have ht : t1 = t2 := ih t2 (by simpa using hlen)
        (fun i hi => by simpa using h (i + 1) (by simpa using hi))
      rw [h0, ht]

/-! ### Concatenation over an index list -/

def catMap {α : Type} (f : Nat → List α) : List Nat → List α
  | [] => []
  | i :: t => f i ++ catMap f t

theorem catMap_map {α : Type} (f : Nat → List α) (g : Nat → Nat) (l : List Nat) :
    catMap f (l.map g) = catMap (fun x => f (g x)) l := by
  induction l with
  | nil => rfl
  | cons a t ih => simp [catMap, ih]

theorem catMap_congr {α : Type} {f1 f2 : Nat → List α} (l : List Nat)
    (h : ∀ x ∈ l, f1 x = f2 x) : catMap f1 l = catMap f2 l := by
  induction l with
  | nil => rfl
  | cons a t ih =>
    simp only [catMap, h a (by simp), ih (fun x hx => h x (by simp [hx]))]

def csrDefault : CSR := ⟨[], [], []⟩

/-! ### CSR union: accumulator recursion equals the prefix-sum closed form -/

theorem csrUnionParts_fst (gs : List CSR) : ∀ ce cn,
    (csrUnionParts cn ce gs).1 =
      catMap (fun k => ((gs.getD k csrDefault).indptr.drop 1).map
        (fun x => x + (ce + ((gs.take k).map CSR.NumEdges).sum)))
        (List.range gs.length) := by
  induction gs with
  | nil => intro ce cn; rfl
  | cons g t ih =>
    intro ce cn
    simp only [csrUnionParts, List.length_cons, List.range_succ_eq_map, catMap, catMap_map]
    rw [ih (ce + g.NumEdges) (cn + g.NumVertices)]
    congr 1
    apply catMap_congr
    intro k hk
    simp [Nat.add_assoc]

theorem csrUnionParts_indices (gs : List CSR) : ∀ cn ce,
    (csrUnionParts cn ce gs).2.1 =
      catMap (fun k => (gs.getD k csrDefault).indices.map
        (fun x => x + (cn + ((gs.take k).map CSR.NumVertices).sum)))
        (List.range gs.length) := by
  induction gs with
  | nil => intro cn ce; rfl
  | cons g t ih =>
    intro cn ce
    simp only [csrUnionParts, List.length_cons, List.range_succ_eq_map, catMap, catMap_map]
    rw [ih (cn + g.NumVertices) (ce + g.NumEdges)]
    congr 1
    apply catMap_congr
    intro k hk
    simp [Nat.add_assoc]

theorem csrUnionParts_edge_ids (gs : List CSR) : ∀ ce cn,
    (csrUnionParts cn ce gs).2.2 =
      catMap (fun k => (gs.getD k csrDefault).edge_ids.map
        (fun x => x + (ce + ((gs.take k).map CSR.NumEdges).sum)))
        (List.range gs.length) := by
  induction gs with
  | nil => intro ce cn; rfl
  | cons g t ih =>
    intro ce cn
    simp only [csrUnionParts, List.length_cons, List.range_succ_eq_map, catMap, catMap_map]
    rw [ih (ce + g.NumEdges) (cn + g.NumVertices)]
    congr 1
    apply catMap_congr
    intro k hk
    simp [Nat.add_assoc]

/-- C3: `DisjointUnion` over immutable CSR graphs returns the CSR whose
`indptr` is a global leading 0 followed by each input's `indptr[1:]`
shifted by the cumulative edge count of the preceding graphs, whose
`indices` is the concatenation of each input's neighbor ids shifted by
the cumulative vertex count of the preceding graphs, and whose
`edge_ids` is the concatenation of each input's edge ids shifted by the
cumulative edge count of the preceding graphs. -/
theorem c3_csr_union_concat (graphs : List CSR) :
    DisjointUnionCSR graphs =
      ⟨0 :: catMap (fun k => ((graphs.getD k csrDefault).indptr.drop 1).map
          (fun x => x + ((graphs.take k).map CSR.NumEdges).sum))
          (List.range graphs.length),
       catMap (fun k => (graphs.getD k csrDefault).indices.map
          (fun x => x + ((graphs.take k).map CSR.NumVertices).sum))
          (List.range graphs.length),
       catMap (fun k => (graphs.getD k csrDefault).edge_ids.map
          (fun x => x + ((graphs.take k).map CSR.NumEdges).sum))
          (List.range graphs.length)⟩ := by
  simp only [DisjointUnionCSR]
  rw [csrUnionParts_fst, csrUnionParts_indices, csrUnionParts_edge_ids]
  simp

/-! ### Partition validation -/

theorem sum_replicate_mul (num x : Nat) :
    (List.replicate num x).sum = num * x := by
  induction num with
  | zero => simp
  | succ m ih => simp [List.replicate, ih, Nat.succ_mul, Nat.add_comm]

theorem sum_replicate_div (n num : Nat) (h0 : num ≠ 0) (hd : n % num = 0) :
    (List.replicate num (n / num)).sum = n := by
  rw [sum_replicate_mul]
  exact Nat.mul_div_cancel' (Nat.dvd_of_mod_eq_zero hd)

/-- C8: for both graph representations, `DisjointPartitionByNum(g, num)`
fails with InvalidArgument exactly when `num = 0` or the vertex count is
not divisible by `num`, and otherwise equals `DisjointPartitionBySizes`
at the uniform size list; `DisjointPartitionBySizes(g, sizes)` fails
exactly when the sizes do not sum to the vertex count.  Failures return
an error value directly, so no partial result is produced. -/
theorem c8_partition_validation (g : Graph) (cg : CSR) (num : Nat) (sizes : List Nat) :
    ((∃ e, DisjointPartitionByNum g num = Except.error e) ↔
      num = 0 ∨ g.NumVertices % num ≠ 0)
    ∧ (num ≠ 0 → g.NumVertices % num = 0 →
        DisjointPartitionByNum g num =
          DisjointPartitionBySizes g (List.replicate num (g.NumVertices / num)))
    ∧ ((∃ e, DisjointPartitionBySizes g sizes = Except.error e) ↔
        sizes.sum ≠ g.NumVertices)
    ∧ ((∃ e, DisjointPartitionByNumCSR cg num = Except.error e) ↔
        num = 0 ∨ cg.NumVertices % num ≠ 0)
    ∧ (num ≠ 0 → cg.NumVertices % num = 0 →
        DisjointPartitionByNumCSR cg num =
          DisjointPartitionBySizesCSR cg (List.replicate num (cg.NumVertices / num)))
    ∧ ((∃ e, DisjointPartitionBySizesCSR cg sizes = Except.error e) ↔
        sizes.sum ≠ cg.NumVertices) := by
  have hby : (∃ e, DisjointPartitionBySizes g sizes = Except.error e) ↔
      sizes.sum ≠ g.NumVertices := by
    unfold DisjointPartitionBySizes
    by_cases h : sizes.sum = g.NumVertices
    · rw [if_pos h]
      constructor
      · rintro ⟨e, he⟩; cases he
      · intro hc; exact absurd h hc
    · rw [if_neg h]
      exact ⟨fun _ => h, fun _ => ⟨_, rfl⟩⟩
  have hbyc : (∃ e, DisjointPartitionBySizesCSR cg sizes = Except.error e) ↔
      sizes.sum ≠ cg.NumVertices := by
    unfold DisjointPartitionBySizesCSR
    by_cases h : sizes.sum = cg.NumVertices
    · rw [if_pos h]
      constructor
      · rintro ⟨e, he⟩; cases he
      · intro hc; exact absurd h hc
    · rw [if_neg h]
      exact ⟨fun _ => h, fun _ => ⟨_, rfl⟩⟩
  refine ⟨?_, ?_, hby, ?_, ?_, hbyc⟩
  · unfold DisjointPartitionByNum
    by_cases h : num ≠ 0 ∧ g.NumVertices % num = 0
    · rw [if_pos h]
      unfold DisjointPartitionBySizes
      rw [if_pos (by rw [sum_replicate_div _ _ h.1 h.2])]
      constructor
      · rintro ⟨e, he⟩; cases he
      · rintro (hc | hc)
        · exact absurd hc h.1
        · exact absurd h.2 hc
    · rw [if_neg h]
      constructor
      · intro _
        by_cases h0 : num = 0
        · exact Or.inl h0
        · exact Or.inr (fun hm => h ⟨h0, hm⟩)
      · intro _; exact ⟨_, rfl⟩
  · intro h1 h2
    unfold DisjointPartitionByNum
    rw [if_pos ⟨h1, h2⟩]
  · unfold DisjointPartitionByNumCSR
    by_cases h : num ≠ 0 ∧ cg.NumVertices % num = 0
    · rw [if_pos h]
      unfold DisjointPartitionBySizesCSR
      rw [if_pos (by rw [sum_replicate_div _ _ h.1 h.2])]
      constructor
      · rintro ⟨e, he⟩; cases he
      · rintro (hc | hc)
        · exact absurd hc h.1
        · exact absurd h.2 hc
    · rw [if_neg h]
      constructor
      · intro _
        by_cases h0 : num = 0
        · exact Or.inl h0
        · exact Or.inr (fun hm => h ⟨h0, hm⟩)
      · intro _; exact ⟨_, rfl⟩
  · intro h1 h2
    unfold DisjointPartitionByNumCSR
    rw [if_pos ⟨h1, h2⟩]

/-- Witness for C8 at a concrete graph, CSR graph, count and size list. -/
theorem c8_partition_validation_witness :
    ((∃ e, DisjointPartitionByNum (buildGraph 2 [(0, 1)]) 2 = Except.error e) ↔
      (2 = 0 ∨ (buildGraph 2 [(0, 1)]).NumVertices % 2 ≠ 0))
    ∧ (2 ≠ 0 → (buildGraph 2 [(0, 1)]).NumVertices % 2 = 0 →
        DisjointPartitionByNum (buildGraph 2 [(0, 1)]) 2 =
          DisjointPartitionBySizes (buildGraph 2 [(0, 1)])
            (List.replicate 2 ((buildGraph 2 [(0, 1)]).NumVertices / 2)))
    ∧ ((∃ e, DisjointPartitionBySizes (buildGraph 2 [(0, 1)]) [1, 2] = Except.error e) ↔
        ([1, 2] : List Nat).sum ≠ (buildGraph 2 [(0, 1)]).NumVertices)
    ∧ ((∃ e, DisjointPartitionByNumCSR ⟨[0, 1], [0], [0]⟩ 2 = Except.error e) ↔
        (2 = 0 ∨ (CSR.mk [0, 1] [0] [0]).NumVertices % 2 ≠ 0))
    ∧ (2 ≠ 0 → (CSR.mk [0, 1] [0] [0]).NumVertices % 2 = 0 →
        DisjointPartitionByNumCSR ⟨[0, 1], [0], [0]⟩ 2 =
          DisjointPartitionBySizesCSR ⟨[0, 1], [0], [0]⟩
            (List.replicate 2 ((CSR.mk [0, 1] [0] [0]).NumVertices / 2)))
    ∧ ((∃ e, DisjointPartitionBySizesCSR ⟨[0, 1], [0], [0]⟩ [1, 2] = Except.error e) ↔
        ([1, 2] : List Nat).sum ≠ (CSR.mk [0, 1] [0] [0]).NumVertices) :=
  c8_partition_validation (buildGraph 2 [(0, 1)]) ⟨[0, 1], [0], [0]⟩ 2 [1, 2]

/-! ### ExpandIds -/

theorem drop_append_right' {α : Type} (l1 l2 : List α) (n : Nat)
    (h : l1.length ≤ n) : (l1 ++ l2).drop n = l2.drop (n - l1.length) := by
  induction l1 generalizing n with
  | nil => simp
  | cons a t ih =>
    cases n with
    | zero => simp at h
    | succ m => simpa using ih m (by simpa using h)

theorem set_append_right' {α : Type} (l1 l2 : List α) (n : Nat) (x : α)
    (h : l1.length ≤ n) : (l1 ++ l2).set n x = l1 ++ l2.set (n - l1.length) x := by
  induction l1 generalizing n with
  | nil => simp
  | cons a t ih =>
    cases n with
    | zero => simp at h
    | succ m => simpa [List.set_cons_succ] using ih m (by simpa using h)

theorem catMap_append {α : Type} (f : Nat → List α) (l1 l2 : List Nat) :
    catMap f (l1 ++ l2) = catMap f l1 ++ catMap f l2 := by
  induction l1 with
  | nil => rfl
  | cons a t ih => simp [catMap, ih]

/-- Writing `cnt` copies of `v` starting at slot `pos` replaces exactly
that segment. -/
theorem foldl_set_range (r : List Nat) (v pos cnt : Nat)
    (h : pos + cnt ≤ r.length) :
    (List.range cnt).foldl (fun s j => s.set (pos + j) v) r =
      r.take pos ++ List.replicate cnt v ++ r.drop (pos + cnt) := by
  induction cnt with
  | zero => simp
  | succ m ih =>
    rw [List.range_succ, List.foldl_append]
    rw [ih (by omega)]
    simp only [List.foldl_cons, List.foldl_nil]
    have hpos : (r.take pos).length = pos := by
      rw [List.length_take]; omega
    have hrep : (List.replicate m v).length = m := List.length_replicate m v
    rw [List.append_assoc, set_append_right' _ _ _ _ (by rw [hpos]; omega)]
    rw [set_append_right' _ _ _ _ (by rw [hrep]; omega)]
    have hidx : pos + m - (r.take pos).length - (List.replicate m v).length = 0 := by
      rw [hpos, hrep]; omega
    rw [hidx]
    have hdrop : r.drop (pos + m) = r[pos + m] :: r.drop (pos + m + 1) :=
      List.drop_eq_getElem_cons (by omega)
    simp only [List.replicate_succ' m v, List.append_assoc]
    rw [hdrop, List.set_cons_zero]
    rw [Nat.add_assoc]
    simp

theorem sortedB_cons (a : Nat) (l : List Nat) (h : isSortedB (a :: l) = true) :
    isSortedB l = true := by
  cases l with
  | nil => rfl
  | cons b t =>
    have := h
    simp only [isSortedB, Bool.and_eq_true, decide_eq_true_eq] at this
    exact this.2

theorem sortedB_getD_le (l : List Nat) (i j : Nat) (hs : isSortedB l = true)
    (hij : i ≤ j) (hj : j < l.length) : l.getD i 0 ≤ l.getD j 0 := by
  induction l generalizing i j with
  | nil => simp at hj
  | cons a t ih =>
    cases j with
    | zero =>
      have : i = 0 := by omega
      simp [this]
    | succ m =>
      cases i with
      | zero =>
        simp only [List.getD_cons_zero, List.getD_cons_succ]
        have hat : a ≤ t.getD 0 0 := by
          cases t with
          | nil => simp at hj
          | cons b t2 =>
            simp only [isSortedB, Bool.and_eq_true, decide_eq_true_eq] at hs
            simpa using hs.1
        exact le_trans hat (ih 0 m (sortedB_cons a t hs) (by omega) (by simpa using hj))
      | succ k =>
        simp only [List.getD_cons_succ]
        exact ih k m (sortedB_cons a t hs) (by omega) (by simpa using hj)

/-- Invariant of the `ExpandIds` write loop: after the first `k` rows,
the output holds the first `k` expanded segments followed by untouched
zero slots. -/
theorem expand_invariant (ids off : List Nat)
    (hlen : off.length = ids.length + 1)
    (h0 : off.getD 0 0 = 0)
    (hs : isSortedB off = true) :
    ∀ k, k ≤ ids.length →
      ((catMap (fun i => List.replicate (off.getD (i + 1) 0 - off.getD i 0)
          (ids.getD i 0)) (List.range k)).length = off.getD k 0)
      ∧ (List.range k).foldl (fun rst i =>
            (List.range (off.getD (i + 1) 0 - off.getD i 0)).foldl
              (fun rst j => rst.set (off.getD i 0 + j) (ids.getD i 0)) rst)
          (List.replicate (off.getD (off.length - 1) 0) 0) =
        catMap (fun i => List.replicate (off.getD (i + 1) 0 - off.getD i 0)
          (ids.getD i 0)) (List.range k)
        ++ List.replicate (off.getD (off.length - 1) 0 - off.getD k 0) 0 := by
  intro k
  induction k with
  | zero =>
    intro _
    have h0' : off[0]?.getD 0 = 0 := by
      rw [← List.getD_eq_getElem?_getD]; exact h0
    constructor
    · simp [catMap, h0']
    · simp [catMap, h0']
  | succ m ih =>
    intro hk1
    obtain ⟨ihlen, ihfold⟩ := ih (by omega)
    have hmm : m ≤ ids.length := by omega
    have hlast : off.length - 1 = ids.length := by omega
    have hm1 : off.getD m 0 ≤ off.getD (m + 1) 0 :=
      sortedB_getD_le off m (m + 1) hs (by omega) (by omega)
    have hm2 : off.getD (m + 1) 0 ≤ off.getD (off.length - 1) 0 :=
      sortedB_getD_le off (m + 1) (off.length - 1) hs (by omega) (by omega)
    constructor
    · rw [List.range_succ, catMap_append]
      simp only [List.length_append, ihlen, catMap, List.append_nil,
        List.length_replicate]
      omega
    · rw [List.range_succ, List.foldl_append, ihfold]
      simp only [List.foldl_cons, List.foldl_nil]
      rw [foldl_set_range _ _ _ _ (by
        simp only [List.length_append, ihlen, List.length_replicate]
        omega)]
      rw [catMap_append]
      simp only [catMap, List.append_nil]
      have htake : (catMap (fun i => List.replicate
          (off.getD (i + 1) 0 - off.getD i 0) (ids.getD i 0)) (List.range m)
          ++ List.replicate (off.getD (off.length - 1) 0 - off.getD m 0) 0).take
            (off.getD m 0) =
          catMap (fun i => List.replicate (off.getD (i + 1) 0 - off.getD i 0)
            (ids.getD i 0)) (List.range m) := by
        conv in List.take _ _ => rw [show off.getD m 0 = (catMap (fun i =>
          List.replicate (off.getD (i + 1) 0 - off.getD i 0) (ids.getD i 0))
          (List.range m)).length from ihlen.symm]
        exact List.take_left _ _
      rw [htake]
      have hdrop2 : (catMap (fun i => List.replicate
          (off.getD (i + 1) 0 - off.getD i 0) (ids.getD i 0)) (List.range m)
          ++ List.replicate (off.getD (off.length - 1) 0 - off.getD m 0) 0).drop
            (off.getD m 0 + (off.getD (m + 1) 0 - off.getD m 0)) =
          List.replicate (off.getD (off.length - 1) 0 - off.getD (m + 1) 0) 0 := by
        rw [drop_append_right' _ _ _ (by rw [ihlen]; omega)]
        rw [ihlen, List.drop_replicate]
        congr 1
        omega
      rw [hdrop2]

/-- C9: for an ids array of length `n` and an offset array of length
`n + 1` that is non-decreasing with a leading 0, `ExpandIds` returns the
in-order concatenation of `offset[i+1] - offset[i]` copies of `ids[i]`,
of total length `offset[n]`; and the array-level call fails exactly when
the offset array is not one longer than the ids array. -/
theorem c9_expand_ids (ids off : List Nat)
    (hlen : off.length = ids.length + 1)
    (h0 : off.getD 0 0 = 0)
    (hs : isSortedB off = true) :
    ExpandIdsCore ids off =
      catMap (fun i => List.replicate (off.getD (i + 1) 0 - off.getD i 0)
        (ids.getD i 0)) (List.range ids.length)
    ∧ (ExpandIdsCore ids off).length = off.getD ids.length 0
    ∧ (∀ a b : TypedArray, (∃ e, ExpandIds a b = Except.error e) ↔
        a.data.length + 1 ≠ b.data.length) := by
  have hlast : off.length - 1 = ids.length := by omega
  have hinv := (expand_invariant ids off hlen h0 hs ids.length (le_refl _)).2
  have hcore : ExpandIdsCore ids off =
      catMap (fun i => List.replicate (off.getD (i + 1) 0 - off.getD i 0)
        (ids.getD i 0)) (List.range ids.length) := by
    unfold ExpandIdsCore
    rw [hinv, hlast]
    simp
  refine ⟨hcore, ?_, ?_⟩
  · rw [hcore]
    exact (expand_invariant ids off hlen h0 hs ids.length (le_refl _)).1
  · intro a b
    unfold ExpandIds
    by_cases h : a.data.length + 1 = b.data.length
    · rw [if_pos h]
      constructor
      · rintro ⟨e, he⟩; cases he
      · intro hc; exact absurd h hc
    · rw [if_neg h]
      exact ⟨fun _ => h, fun _ => ⟨_, rfl⟩⟩

/-- Witness for C9 at `ids = [5, 7]`, `offset = [0, 2, 3]` (the expansion
evaluates to `[5, 5, 7]`). -/
theorem c9_expand_ids_witness :
    (([0, 2, 3] : List Nat).length = ([5, 7] : List Nat).length + 1)
    ∧ (([0, 2, 3] : List Nat).getD 0 0 = 0)
    ∧ isSortedB [0, 2, 3] = true
    ∧ ExpandIdsCore [5, 7] [0, 2, 3] = [5, 5, 7]
    ∧ (ExpandIdsCore [5, 7] [0, 2, 3]).length = ([0, 2, 3] : List Nat).getD 2 0 := by
  refine ⟨by decide, by decide, by decide, ?_, ?_⟩
  · rw [(c9_expand_ids [5, 7] [0, 2, 3] (by decide) (by decide) (by decide)).1]
    decide
  · exact (c9_expand_ids [5, 7] [0, 2, 3] (by decide) (by decide) (by decide)).2.1

/-! ### Parent-to-subgraph id lookup -/

theorem scanFind_not_mem (p : List Nat) (x : Nat) (hx : x ∉ p) :
    ∀ i, scanFind i p x = none := by
  induction p with
  | nil => intro i; rfl
  | cons a t ih =>
    intro i
    simp only [List.mem_cons, not_or] at hx
    simp only [scanFind, if_neg (fun hc : a = x => hx.1 hc.symm)]
    exact ih hx.2 (i + 1)

theorem scanFind_nodup (p : List Nat) (x pos : Nat) (hnd : p.Nodup)
    (hpos : p[pos]? = some x) : ∀ i, scanFind i p x = some (i + pos) := by
  induction p generalizing pos with
  | nil => simp at hpos
  | cons a t ih =>
    intro i
    rcases List.nodup_cons.mp hnd with ⟨hat, hndt⟩
    cases pos with
    | zero =>
      simp only [List.getElem?_cons_zero, Option.some.injEq] at hpos
      simp [scanFind, hpos]
    | succ k =>
      simp only [List.getElem?_cons_succ] at hpos
      have hxt : x ∈ t := List.mem_iff_getElem?.mpr ⟨k, hpos⟩
      have hax : ¬(a = x) := fun hc => hat (hc ▸ hxt)
      simp only [scanFind, if_neg hax]
      rw [ih k hndt hpos (i + 1)]
      congr 1
      omega

theorem buildMapAux_not_mem (p : List Nat) (x : Nat) (hx : x ∉ p) :
    ∀ i m, buildMapAux i m p x = m x := by
  induction p with
  | nil => intro i m; rfl
  | cons a t ih =>
    intro i m
    simp only [List.mem_cons, not_or] at hx
    simp only [buildMapAux]
    rw [ih hx.2]
    simp [if_neg hx.1]

theorem buildMapAux_nodup (p : List Nat) (x pos : Nat) (hnd : p.Nodup)
    (hpos : p[pos]? = some x) : ∀ i m, buildMapAux i m p x = some (i + pos) := by
  induction p generalizing pos with
  | nil => simp at hpos
  | cons a t ih =>
    intro i m
    rcases List.nodup_cons.mp hnd with ⟨hat, hndt⟩
    cases pos with
    | zero =>
      simp only [List.getElem?_cons_zero, Option.some.injEq] at hpos
      simp only [buildMapAux]
      rw [buildMapAux_not_mem t x (hpos ▸ hat)]
      simp [hpos]
    | succ k =>
      simp only [List.getElem?_cons_succ] at hpos
      simp only [buildMapAux]
      rw [ih k hndt hpos (i + 1)]
      congr 1
      omega

/-- The single lookup value both strategies agree on for a duplicate-free
parent array. -/
theorem lookup_agree (p : List Nat) (hnd : p.Nodup) (x : Nat) :
    buildMapAux 0 (fun _ => none) p x = scanFind 0 p x := by
  by_cases hx : x ∈ p
  · obtain ⟨pos, hlt, hpos⟩ := List.getElem_of_mem hx
    have hpos' : p[pos]? = some x := by
      rw [List.getElem?_eq_getElem hlt, hpos]
    rw [buildMapAux_nodup p x pos hnd hpos', scanFind_nodup p x pos hnd hpos']
  · rw [buildMapAux_not_mem p x hx, scanFind_not_mem p x hx]

/-- C6 counterexample: on the sorted parent array `[5, 5]` (duplicate
values) the scan strategy (which executes, and returns the first
occurrence) and the hash strategy (which would return the last
occurrence) disagree. -/
theorem c6_strategies_counterexample :
    isSortedB [5, 5] = true
    ∧ MapParentIdToSubgraphIdCore [5, 5] [5] = scanStrategy [5, 5] [5]
    ∧ scanStrategy [5, 5] [5] = [0]
    ∧ hashStrategy [5, 5] [5] = [1]
    ∧ scanStrategy [5, 5] [5] ≠ hashStrategy [5, 5] [5] := by
  refine ⟨rfl, rfl, rfl, rfl, ?_⟩
  decide

/-- C6 (amended): for a parent array with pairwise-distinct values, the
scan-based and hash-map-based strategies produce identical results on
every query, whichever one executes; each output element is the position
of the queried id when present and the `-1` sentinel (as read through
the int64 view) when absent. -/
theorem c6_map_parent_unique (p q : List Nat) (hnd : p.Nodup) :
    scanStrategy p q = hashStrategy p q
    ∧ MapParentIdToSubgraphIdCore p q = scanStrategy p q
    ∧ (∀ (i x : Nat), q[i]? = some x →
        (x ∉ p → (MapParentIdToSubgraphIdCore p q)[i]? = some U64NEG1
          ∧ asInt64 U64NEG1 = -1)
        ∧ (∀ (pos : Nat), p[pos]? = some x →
            (MapParentIdToSubgraphIdCore p q)[i]? = some pos)) := by
  have hagree : scanStrategy p q = hashStrategy p q := by
    unfold scanStrategy hashStrategy
    apply List.map_congr_left
    intro x _
    rw [lookup_agree p hnd x]
  have hcore : MapParentIdToSubgraphIdCore p q = scanStrategy p q := by
    unfold MapParentIdToSubgraphIdCore
    by_cases h : isSortedB p
    · rw [if_pos h]
    · rw [if_neg h, hagree]
  refine ⟨hagree, hcore, ?_⟩
  intro i x hix
  constructor
  · intro hxp
    refine ⟨?_, by decide⟩
    rw [hcore]
    unfold scanStrategy
    rw [List.getElem?_map, hix]
    simp [scanFind_not_mem p x hxp 0]
  · intro pos hpos
    rw [hcore]
    unfold scanStrategy
    rw [List.getElem?_map, hix]
    simp [scanFind_nodup p x pos hnd hpos 0]

/-- Witness for C6 (amended) at `parent = [3, 1]`, `query = [1, 42]`. -/
theorem c6_map_parent_unique_witness :
    ([3, 1] : List Nat).Nodup
    ∧ scanStrategy [3, 1] [1, 42] = hashStrategy [3, 1] [1, 42]
    ∧ MapParentIdToSubgraphIdCore [3, 1] [1, 42] = scanStrategy [3, 1] [1, 42] :=
  ⟨by decide, (c6_map_parent_unique [3, 1] [1, 42] (by decide)).1,
   (c6_map_parent_unique [3, 1] [1, 42] (by decide)).2.1⟩

/-- C7 counterexample: `ExpandIds` accepts a non-host (GPU-tagged) array
without any validity check — only the length relation is tested — so not
every operation taking a typed array validates it. -/
theorem c7_expand_ids_no_validation_counterexample :
    IsValidIdArray ⟨kDLGPU, 1, kDLInt, 64, [5, 7]⟩ = false
    ∧ (∃ r, ExpandIds ⟨kDLGPU, 1, kDLInt, 64, [5, 7]⟩
        ⟨kDLGPU, 1, kDLInt, 64, [0, 2, 3]⟩ = Except.ok r) :=
  ⟨by decide, ⟨_, rfl⟩⟩

/-- C7 (amended): `MapParentIdToSubgraphId` rejects, before any
computation, exactly the calls in which either array is not
host-resident, one-dimensional, signed-integer and 64-bit wide, and
accepts exactly the calls in which both are; `ExpandIds` performs no
such validity check — it fails exactly on the length relation. -/
theorem c7_array_validation (p q a b : TypedArray) :
    ((∃ r, MapParentIdToSubgraphId p q = Except.ok r) ↔
      IsValidIdArray p = true ∧ IsValidIdArray q = true)
    ∧ ((∃ e, MapParentIdToSubgraphId p q = Except.error e) ↔
      ¬(IsValidIdArray p = true ∧ IsValidIdArray q = true))
    ∧ ((∃ e, ExpandIds a b = Except.error e) ↔ a.data.length + 1 ≠ b.data.length)
    ∧ ((∃ r, ExpandIds a b = Except.ok r) ↔ a.data.length + 1 = b.data.length) := by
  have h1 : (∃ r, MapParentIdToSubgraphId p q = Except.ok r) ↔
      IsValidIdArray p = true ∧ IsValidIdArray q = true := by
    unfold MapParentIdToSubgraphId
    by_cases hp : IsValidIdArray p = true
    · rw [if_pos hp]
      by_cases hq : IsValidIdArray q = true
      · rw [if_pos hq]
        exact ⟨fun _ => ⟨hp, hq⟩, fun _ => ⟨_, rfl⟩⟩
      · rw [if_neg hq]
        constructor
        · rintro ⟨r, hr⟩; cases hr
        · rintro ⟨_, h⟩; exact absurd h hq
    · rw [if_neg hp]
      constructor
      · rintro ⟨r, hr⟩; cases hr
      · rintro ⟨h, _⟩; exact absurd h hp
  have h2 : (∃ e, MapParentIdToSubgraphId p q = Except.error e) ↔
      ¬(IsValidIdArray p = true ∧ IsValidIdArray q = true) := by
    unfold MapParentIdToSubgraphId
    by_cases hp : IsValidIdArray p = true
    · rw [if_pos hp]
      by_cases hq : IsValidIdArray q = true
      · rw [if_pos hq]
        constructor
        · rintro ⟨e, he⟩; cases he
        · intro hc; exact absurd ⟨hp, hq⟩ hc
      · rw [if_neg hq]
        exact ⟨fun _ hc => hq hc.2, fun _ => ⟨_, rfl⟩⟩
    · rw [if_neg hp]
      exact ⟨fun _ hc => hp hc.1, fun _ => ⟨_, rfl⟩⟩
  have h3 : (∃ e, ExpandIds a b = Except.error e) ↔
      a.data.length + 1 ≠ b.data.length := by
    unfold ExpandIds
    by_cases h : a.data.length + 1 = b.data.length
    · rw [if_pos h]
      constructor
      · rintro ⟨e, he⟩; cases he
      · intro hc; exact absurd h hc
    · rw [if_neg h]
      exact ⟨fun _ => h, fun _ => ⟨_, rfl⟩⟩
  have h4 : (∃ r, ExpandIds a b = Except.ok r) ↔
      a.data.length + 1 = b.data.length := by
    unfold ExpandIds
    by_cases h : a.data.length + 1 = b.data.length
    · rw [if_pos h]
      exact ⟨fun _ => h, fun _ => ⟨_, rfl⟩⟩
    · rw [if_neg h]
      constructor
      · rintro ⟨r, hr⟩; cases hr
      · intro hc; exact absurd hc h
  exact ⟨h1, h2, h3, h4⟩

/-- Witness for C7 (amended) at concrete valid and invalid arrays. -/
theorem c7_array_validation_witness :
    ((∃ r, MapParentIdToSubgraphId ⟨kDLCPU, 1, kDLInt, 64, [3, 1]⟩
        ⟨kDLCPU, 1, kDLInt, 64, [1]⟩ = Except.ok r) ↔
      IsValidIdArray ⟨kDLCPU, 1, kDLInt, 64, [3, 1]⟩ = true
        ∧ IsValidIdArray ⟨kDLCPU, 1, kDLInt, 64, [1]⟩ = true)
    ∧ ((∃ e, MapParentIdToSubgraphId ⟨kDLCPU, 1, kDLInt, 64, [3, 1]⟩
        ⟨kDLCPU, 1, kDLInt, 64, [1]⟩ = Except.error e) ↔
      ¬(IsValidIdArray ⟨kDLCPU, 1, kDLInt, 64, [3, 1]⟩ = true
        ∧ IsValidIdArray ⟨kDLCPU, 1, kDLInt, 64, [1]⟩ = true))
    ∧ ((∃ e, ExpandIds ⟨kDLCPU, 1, kDLInt, 64, [5, 7]⟩
        ⟨kDLCPU, 1, kDLInt, 64, [0, 2, 3]⟩ = Except.error e) ↔
      ([5, 7] : List Nat).length + 1 ≠ ([0, 2, 3] : List Nat).length)
    ∧ ((∃ r, ExpandIds ⟨kDLCPU, 1, kDLInt, 64, [5, 7]⟩
        ⟨kDLCPU, 1, kDLInt, 64, [0, 2, 3]⟩ = Except.ok r) ↔
      ([5, 7] : List Nat).length + 1 = ([0, 2, 3] : List Nat).length) :=
  c7_array_validation ⟨kDLCPU, 1, kDLInt, 64, [3, 1]⟩ ⟨kDLCPU, 1, kDLInt, 64, [1]⟩
    ⟨kDLCPU, 1, kDLInt, 64, [5, 7]⟩ ⟨kDLCPU, 1, kDLInt, 64, [0, 2, 3]⟩

/-! ### Characterization of append-only graph construction -/

def EdgeList.append (el1 el2 : EdgeList) : EdgeList :=
  ⟨el1.succ ++ el2.succ, el1.edge_id ++ el2.edge_id⟩

def EdgeList.mapEL (f g : Nat → Nat) (el : EdgeList) : EdgeList :=
  ⟨el.succ.map f, el.edge_id.map g⟩

/-- The forward adjacency entries of vertex `u` generated by inserting
the edge list `es` when `base` edges already exist. -/
def outEntriesFrom (u base : Nat) : List (Nat × Nat) → EdgeList
  | [] => ⟨[], []⟩
  | (s, d) :: rest =>
      let r := outEntriesFrom u (base + 1) rest
      if s = u then ⟨d :: r.succ, base :: r.edge_id⟩ else r

/-- The reverse adjacency entries of vertex `u` generated by inserting
the edge list `es` when `base` edges already exist. -/
def inEntriesFrom (u base : Nat) : List (Nat × Nat) → EdgeList
  | [] => ⟨[], []⟩
  | (s, d) :: rest =>
      let r := inEntriesFrom u (base + 1) rest
      if d = u then ⟨s :: r.succ, base :: r.edge_id⟩ else r

theorem EdgeList.append_nil (el : EdgeList) : el.append ⟨[], []⟩ = el := by
  simp [EdgeList.append]

theorem EdgeList.nil_append (el : EdgeList) : EdgeList.append ⟨[], []⟩ el = el := by
  simp [EdgeList.append]

theorem EdgeList.push_append (el r : EdgeList) (v e : Nat) :
    (el.push v e).append r = el.append ⟨v :: r.succ, e :: r.edge_id⟩ := by
  simp [EdgeList.push, EdgeList.append]

theorem EdgeList.append_assoc (e1 e2 e3 : EdgeList) :
    (e1.append e2).append e3 = e1.append (e2.append e3) := by
  simp [EdgeList.append]

theorem addEdges_src (es : List (Nat × Nat)) : ∀ g : Graph,
    (g.addEdges es).all_edges_src_ = g.all_edges_src_ ++ es.map Prod.fst := by
  induction es with
  | nil => intro g; simp [Graph.addEdges]
  | cons e rest ih =>
    intro g
    show ((g.AddEdge e.1 e.2).addEdges rest).all_edges_src_ = _
    rw [ih]
    simp [Graph.AddEdge]

theorem addEdges_dst (es : List (Nat × Nat)) : ∀ g : Graph,
    (g.addEdges es).all_edges_dst_ = g.all_edges_dst_ ++ es.map Prod.snd := by
  induction es with
  | nil => intro g; simp [Graph.addEdges]
  | cons e rest ih =>
    intro g
    show ((g.AddEdge e.1 e.2).addEdges rest).all_edges_dst_ = _
    rw [ih]
    simp [Graph.AddEdge]

theorem addEdges_adj_length (es : List (Nat × Nat)) : ∀ g : Graph,
    (g.addEdges es).adjlist_.length = g.adjlist_.length := by
  induction es with
  | nil => intro g; rfl
  | cons e rest ih =>
    intro g
    show ((g.AddEdge e.1 e.2).addEdges rest).adjlist_.length = _
    rw [ih]
    simp [Graph.AddEdge, length_listModify]

theorem addEdges_rev_length (es : List (Nat × Nat)) : ∀ g : Graph,
    (g.addEdges es).reverse_adjlist_.length = g.reverse_adjlist_.length := by
  induction es with
  | nil => intro g; rfl
  | cons e rest ih =>
    intro g
    show ((g.AddEdge e.1 e.2).addEdges rest).reverse_adjlist_.length = _
    rw [ih]
    simp [Graph.AddEdge, length_listModify]

theorem addEdges_numEdges (es : List (Nat × Nat)) (g : Graph) :
    (g.addEdges es).NumEdges = g.NumEdges + es.length := by
  unfold Graph.NumEdges
  rw [addEdges_src]
  simp

theorem adjAt_addEdges (es : List (Nat × Nat)) : ∀ (g : Graph) (u : Nat),
    u < g.adjlist_.length →
    adjAt (g.addEdges es) u = (adjAt g u).append (outEntriesFrom u g.NumEdges es) := by
  induction es with
  | nil =>
    intro g u _
    simp [Graph.addEdges, outEntriesFrom, EdgeList.append_nil]
  | cons e rest ih =>
    intro g u hu
    obtain ⟨a, b⟩ := e
    show adjAt ((g.AddEdge a b).addEdges rest) u = _
    rw [ih (g.AddEdge a b) u (by simp [Graph.AddEdge, length_listModify]; exact hu)]
    have hne : (g.AddEdge a b).NumEdges = g.NumEdges + 1 := by
      simp [Graph.AddEdge, Graph.NumEdges]
    rw [hne]
    by_cases hau : a = u
    · subst hau
      have hadj : adjAt (g.AddEdge a b) a =
          (adjAt g a).push b g.NumEdges := by
        unfold adjAt Graph.AddEdge
        exact getD_listModify_self _ a g.adjlist_ ⟨[], []⟩ hu
      rw [hadj, EdgeList.push_append]
      simp [outEntriesFrom]
    · have hadj : adjAt (g.AddEdge a b) u = adjAt g u := by
        unfold adjAt Graph.AddEdge
        exact getD_listModify_ne _ a u g.adjlist_ ⟨[], []⟩ (fun hc => hau hc.symm)
      rw [hadj]
      simp [outEntriesFrom, if_neg hau]

theorem revAt_addEdges (es : List (Nat × Nat)) : ∀ (g : Graph) (u : Nat),
    u < g.reverse_adjlist_.length →
    revAt (g.addEdges es) u = (revAt g u).append (inEntriesFrom u g.NumEdges es) := by
  induction es with
  | nil =>
    intro g u _
    simp [Graph.addEdges, inEntriesFrom, EdgeList.append_nil]
  | cons e rest ih =>
    intro g u hu
    obtain ⟨a, b⟩ := e
    show revAt ((g.AddEdge a b).addEdges rest) u = _
    rw [ih (g.AddEdge a b) u (by simp [Graph.AddEdge, length_listModify]; exact hu)]
    have hne : (g.AddEdge a b).NumEdges = g.NumEdges + 1 := by
      simp [Graph.AddEdge, Graph.NumEdges]
    rw [hne]
    by_cases hbu : b = u
    · subst hbu
      have hadj : revAt (g.AddEdge a b) b =
          (revAt g b).push a g.NumEdges := by
        unfold revAt Graph.AddEdge
        exact getD_listModify_self _ b g.reverse_adjlist_ ⟨[], []⟩ hu
      rw [hadj, EdgeList.push_append]
      simp [inEntriesFrom]
    · have hadj : revAt (g.AddEdge a b) u = revAt g u := by
        unfold revAt Graph.AddEdge
        exact getD_listModify_ne _ b u g.reverse_adjlist_ ⟨[], []⟩ (fun hc => hbu hc.symm)
      rw [hadj]
      simp [inEntriesFrom, if_neg hbu]

theorem getD_replicate {α : Type} (x d : α) : ∀ (n i : Nat), i < n →
    (List.replicate n x).getD i d = x := by
  intro n
  induction n with
  | zero => intro i h; omega
  | succ m ih =>
    intro i h
    cases i with
    | zero => rfl
    | succ k => simpa [List.replicate] using ih k (by omega)

theorem zip_map_fst_snd {α β : Type} (l : List (α × β)) :
    (l.map Prod.fst).zip (l.map Prod.snd) = l := by
  induction l with
  | nil => rfl
  | cons a t ih => simp [ih]

theorem getD_map_range {α : Type} (f : Nat → α) (n i : Nat) (d : α) (h : i < n) :
    ((List.range n).map f).getD i d = f i := by
  rw [List.getD_eq_getElem?_getD, List.getElem?_map,
    List.getElem?_range h]
  rfl

theorem buildGraph_src (n : Nat) (es : List (Nat × Nat)) :
    (buildGraph n es).all_edges_src_ = es.map Prod.fst := by
  unfold buildGraph
  rw [addEdges_src]
  rfl

theorem buildGraph_dst (n : Nat) (es : List (Nat × Nat)) :
    (buildGraph n es).all_edges_dst_ = es.map Prod.snd := by
  unfold buildGraph
  rw [addEdges_dst]
  rfl

theorem buildGraph_edges (n : Nat) (es : List (Nat × Nat)) :
    (buildGraph n es).edges = es := by
  unfold Graph.edges
  rw [buildGraph_src, buildGraph_dst, zip_map_fst_snd]

theorem buildGraph_numVertices (n : Nat) (es : List (Nat × Nat)) :
    (buildGraph n es).NumVertices = n := by
  unfold buildGraph Graph.NumVertices
  rw [addEdges_adj_length]
  simp [Graph.AddVertices, Graph.empty]

theorem buildGraph_rev_length (n : Nat) (es : List (Nat × Nat)) :
    (buildGraph n es).reverse_adjlist_.length = n := by
  unfold buildGraph
  rw [addEdges_rev_length]
  simp [Graph.AddVertices, Graph.empty]

theorem buildGraph_numEdges (n : Nat) (es : List (Nat × Nat)) :
    (buildGraph n es).NumEdges = es.length := by
  unfold Graph.NumEdges
  rw [buildGraph_src]
  simp

theorem adjAt_buildGraph (n : Nat) (es : List (Nat × Nat)) (u : Nat) (h : u < n) :
    adjAt (buildGraph n es) u = outEntriesFrom u 0 es := by
  unfold buildGraph
  rw [adjAt_addEdges _ _ _ (by simpa [Graph.AddVertices, Graph.empty] using h)]
  have hbase : adjAt (Graph.empty.AddVertices n) u = ⟨[], []⟩ := by
    unfold adjAt Graph.AddVertices Graph.empty
    simpa using getD_replicate _ _ n u h
  have hzero : (Graph.empty.AddVertices n).NumEdges = 0 := rfl
  rw [hbase, hzero, EdgeList.nil_append]

theorem revAt_buildGraph (n : Nat) (es : List (Nat × Nat)) (u : Nat) (h : u < n) :
    revAt (buildGraph n es) u = inEntriesFrom u 0 es := by
  unfold buildGraph
  rw [revAt_addEdges _ _ _ (by simpa [Graph.AddVertices, Graph.empty] using h)]
  have hbase : revAt (Graph.empty.AddVertices n) u = ⟨[], []⟩ := by
    unfold revAt Graph.AddVertices Graph.empty
    simpa using getD_replicate _ _ n u h
  have hzero : (Graph.empty.AddVertices n).NumEdges = 0 := rfl
  rw [hbase, hzero, EdgeList.nil_append]

theorem buildGraph_adjlist (n : Nat) (es : List (Nat × Nat)) :
    (buildGraph n es).adjlist_ =
      (List.range n).map (fun u => outEntriesFrom u 0 es) := by
  apply listExtGetD ⟨[], []⟩
  · have h1 : (buildGraph n es).adjlist_.length = n := buildGraph_numVertices n es
    simp [h1]
  · intro i hi
    have hi' : i < n := by
      have h1 : (buildGraph n es).adjlist_.length = n := buildGraph_numVertices n es
      omega
    rw [getD_map_range _ _ _ _ hi']
    exact adjAt_buildGraph n es i hi'

theorem buildGraph_rev_adjlist (n : Nat) (es : List (Nat × Nat)) :
    (buildGraph n es).reverse_adjlist_ =
      (List.range n).map (fun u => inEntriesFrom u 0 es) := by
  apply listExtGetD ⟨[], []⟩
  · have h1 : (buildGraph n es).reverse_adjlist_.length = n := buildGraph_rev_length n es
    simp [h1]
  · intro i hi
    have hi' : i < n := by
      have h1 : (buildGraph n es).reverse_adjlist_.length = n := buildGraph_rev_length n es
      omega
    rw [getD_map_range _ _ _ _ hi']
    exact revAt_buildGraph n es i hi'

theorem outEntriesFrom_append (u : Nat) (es1 es2 : List (Nat × Nat)) : ∀ b,
    outEntriesFrom u b (es1 ++ es2) =
      (outEntriesFrom u b es1).append (outEntriesFrom u (b + es1.length) es2) := by
  induction es1 with
  | nil => intro b; simp [outEntriesFrom, EdgeList.nil_append]
  | cons e rest ih =>
    intro b
    obtain ⟨s, d⟩ := e
    simp only [List.cons_append, outEntriesFrom, List.length_cons]
    have ih2 : outEntriesFrom u (b + 1) (rest.append es2) =
        (outEntriesFrom u (b + 1) rest).append
          (outEntriesFrom u (b + 1 + rest.length) es2) := ih (b + 1)
    rw [ih2, show b + 1 + rest.length = b + (rest.length + 1) from by omega]
    by_cases hsu : s = u
    · rw [if_pos hsu, if_pos hsu]
      simp [EdgeList.append]
    · rw [if_neg hsu, if_neg hsu]

theorem inEntriesFrom_append (u : Nat) (es1 es2 : List (Nat × Nat)) : ∀ b,
    inEntriesFrom u b (es1 ++ es2) =
      (inEntriesFrom u b es1).append (inEntriesFrom u (b + es1.length) es2) := by
  induction es1 with
  | nil => intro b; simp [inEntriesFrom, EdgeList.nil_append]
  | cons e rest ih =>
    intro b
    obtain ⟨s, d⟩ := e
    simp only [List.cons_append, inEntriesFrom, List.length_cons]
    have ih2 : inEntriesFrom u (b + 1) (rest.append es2) =
        (inEntriesFrom u (b + 1) rest).append
          (inEntriesFrom u (b + 1 + rest.length) es2) := ih (b + 1)
    rw [ih2, show b + 1 + rest.length = b + (rest.length + 1) from by omega]
    by_cases hdu : d = u
    · rw [if_pos hdu, if_pos hdu]
      simp [EdgeList.append]
    · rw [if_neg hdu, if_neg hdu]

theorem outEntriesFrom_no_src (u : Nat) (es : List (Nat × Nat))
    (h : ∀ e ∈ es, e.1 ≠ u) : ∀ b, outEntriesFrom u b es = ⟨[], []⟩ := by
  induction es with
  | nil => intro b; rfl
  | cons e rest ih =>
    intro b
    obtain ⟨s, d⟩ := e
    simp only [outEntriesFrom]
    rw [if_neg (h (s, d) (by simp))]
    exact ih (fun e he => h e (by simp [he])) (b + 1)

theorem inEntriesFrom_no_dst (u : Nat) (es : List (Nat × Nat))
    (h : ∀ e ∈ es, e.2 ≠ u) : ∀ b, inEntriesFrom u b es = ⟨[], []⟩ := by
  induction es with
  | nil => intro b; rfl
  | cons e rest ih =>
    intro b
    obtain ⟨s, d⟩ := e
    simp only [inEntriesFrom]
    rw [if_neg (h (s, d) (by simp))]
    exact ih (fun e he => h e (by simp [he])) (b + 1)

theorem outEntriesFrom_shift (u c : Nat) (es : List (Nat × Nat)) : ∀ b,
    outEntriesFrom (c + u) b (shiftEdges c es) =
      (outEntriesFrom u b es).mapEL (fun x => x + c) id := by
  induction es with
  | nil => intro b; simp [outEntriesFrom, shiftEdges, EdgeList.mapEL]
  | cons e rest ih =>
    intro b
    obtain ⟨s, d⟩ := e
    simp only [shiftEdges] at ih ⊢
    simp only [List.map_cons, outEntriesFrom]
    by_cases hsu : s = u
    · rw [if_pos (show s + c = c + u by rw [hsu]; omega), if_pos hsu, ih (b + 1)]
      simp [EdgeList.mapEL]
    · rw [if_neg (fun hc : s + c = c + u => hsu (by omega)), if_neg hsu, ih (b + 1)]

theorem inEntriesFrom_shift (u c : Nat) (es : List (Nat × Nat)) : ∀ b,
    inEntriesFrom (c + u) b (shiftEdges c es) =
      (inEntriesFrom u b es).mapEL (fun x => x + c) id := by
  induction es with
  | nil => intro b; simp [inEntriesFrom, shiftEdges, EdgeList.mapEL]
  | cons e rest ih =>
    intro b
    obtain ⟨s, d⟩ := e
    simp only [shiftEdges] at ih ⊢
    simp only [List.map_cons, inEntriesFrom]
    by_cases hdu : d = u
    · rw [if_pos (show d + c = c + u by rw [hdu]; omega), if_pos hdu, ih (b + 1)]
      simp [EdgeList.mapEL]
    · rw [if_neg (fun hc : d + c = c + u => hdu (by omega)), if_neg hdu, ih (b + 1)]

theorem mem_pairs_outEntriesFrom (u : Nat) (es : List (Nat × Nat)) (w j : Nat) :
    ∀ b, ((w, j) ∈ (outEntriesFrom u b es).pairs ↔
      ∃ p, es[p]? = some (u, w) ∧ j = b + p) := by
  induction es with
  | nil =>
    intro b
    simp [outEntriesFrom, EdgeList.pairs]
  | cons e rest ih =>
    intro b
    obtain ⟨s, d⟩ := e
    simp only [outEntriesFrom]
    by_cases hsu : s = u
    · rw [if_pos hsu]
      have hpairs : (EdgeList.mk (d :: (outEntriesFrom u (b + 1) rest).succ)
          (b :: (outEntriesFrom u (b + 1) rest).edge_id)).pairs =
          (d, b) :: (outEntriesFrom u (b + 1) rest).pairs := rfl
      rw [hpairs]
      simp only [List.mem_cons, ih (b + 1)]
      constructor
      · rintro (h1 | ⟨p, hp, hj⟩)
        · injection h1 with hw hjb
          exact ⟨0, by simp [hsu, hw], by omega⟩
        · exact ⟨p + 1, by simpa using hp, by omega⟩
      · rintro ⟨p, hp, hj⟩
        cases p with
        | zero =>
          rw [List.getElem?_cons_zero] at hp
          injection hp with hpair
          injection hpair with hs hd
          left
          simp [← hd, hj]
        | succ k =>
          rw [List.getElem?_cons_succ] at hp
          right
          exact ⟨k, hp, by omega⟩
    · rw [if_neg hsu]
      rw [ih (b + 1)]
      constructor
      · rintro ⟨p, hp, hj⟩
        exact ⟨p + 1, by simpa using hp, by omega⟩
      · rintro ⟨p, hp, hj⟩
        cases p with
        | zero =>
          rw [List.getElem?_cons_zero] at hp
          injection hp with hpair
          injection hpair with hs hd
          exact absurd hs hsu
        | succ k =>
          rw [List.getElem?_cons_succ] at hp
          exact ⟨k, hp, by omega⟩

theorem mem_pairs_inEntriesFrom (u : Nat) (es : List (Nat × Nat)) (w j : Nat) :
    ∀ b, ((w, j) ∈ (inEntriesFrom u b es).pairs ↔
      ∃ p, es[p]? = some (w, u) ∧ j = b + p) := by
  induction es with
  | nil =>
    intro b
    simp [inEntriesFrom, EdgeList.pairs]
  | cons e rest ih =>
    intro b
    obtain ⟨s, d⟩ := e
    simp only [inEntriesFrom]
    by_cases hdu : d = u
    · rw [if_pos hdu]
      have hpairs : (EdgeList.mk (s :: (inEntriesFrom u (b + 1) rest).succ)
          (b :: (inEntriesFrom u (b + 1) rest).edge_id)).pairs =
          (s, b) :: (inEntriesFrom u (b + 1) rest).pairs := rfl
      rw [hpairs]
      simp only [List.mem_cons, ih (b + 1)]
      constructor
      · rintro (h1 | ⟨p, hp, hj⟩)
        · injection h1 with hw hjb
          exact ⟨0, by simp [hdu, hw], by omega⟩
        · exact ⟨p + 1, by simpa using hp, by omega⟩
      · rintro ⟨p, hp, hj⟩
        cases p with
        | zero =>
          rw [List.getElem?_cons_zero] at hp
          injection hp with hpair
          injection hpair with hs hd
          left
          simp [← hs, hj]
        | succ k =>
          rw [List.getElem?_cons_succ] at hp
          right
          exact ⟨k, hp, by omega⟩
    · rw [if_neg hdu]
      rw [ih (b + 1)]
      constructor
      · rintro ⟨p, hp, hj⟩
        exact ⟨p + 1, by simpa using hp, by omega⟩
      · rintro ⟨p, hp, hj⟩
        cases p with
        | zero =>
          rw [List.getElem?_cons_zero] at hp
          injection hp with hpair
          injection hpair with hs hd
          exact absurd hd hdu
        | succ k =>
          rw [List.getElem?_cons_succ] at hp
          exact ⟨k, hp, by omega⟩

/-! ### Disjoint union as a single append-only build -/

theorem AddVertices_zero (g : Graph) : g.AddVertices 0 = g := by
  simp [Graph.AddVertices]

theorem AddVertices_AddVertices (g : Graph) (a b : Nat) :
    (g.AddVertices a).AddVertices b = g.AddVertices (a + b) := by
  simp only [Graph.AddVertices, List.replicate_add, List.append_assoc]

theorem addEdges_append (g : Graph) (es1 es2 : List (Nat × Nat)) :
    (g.addEdges es1).addEdges es2 = g.addEdges (es1 ++ es2) :=
  (List.foldl_append _ _ es1 es2).symm

theorem AddEdge_AddVertices (g : Graph) (a b n : Nat)
    (ha : a < g.adjlist_.length) (hb : b < g.reverse_adjlist_.length) :
    (g.AddEdge a b).AddVertices n = (g.AddVertices n).AddEdge a b := by
  simp [Graph.AddEdge, Graph.AddVertices, Graph.NumEdges,
    listModify_append_left, ha, hb]

theorem addEdges_AddVertices (es : List (Nat × Nat)) : ∀ (g : Graph) (n : Nat),
    (∀ e ∈ es, e.1 < g.adjlist_.length ∧ e.2 < g.reverse_adjlist_.length) →
    (g.addEdges es).AddVertices n = (g.AddVertices n).addEdges es := by
  induction es with
  | nil => intro g n _; rfl
  | cons e rest ih =>
    intro g n h
    show ((g.AddEdge e.1 e.2).addEdges rest).AddVertices n =
      ((g.AddVertices n).AddEdge e.1 e.2).addEdges rest
    rw [ih (g.AddEdge e.1 e.2) n (by
      intro e2 he2
      have := h e2 (by simp [he2])
      simpa [Graph.AddEdge, length_listModify] using this)]
    rw [AddEdge_AddVertices g e.1 e.2 n (h e (by simp)).1 (h e (by simp)).2]

def sumV (gs : List Graph) : Nat := (gs.map Graph.NumVertices).sum

/-- The edge stream inserted by the mutable `DisjointUnion` starting at
vertex offset `c`: each graph's edges in original edge-id order, shifted
by the cumulative vertex count. -/
def unionEdges : Nat → List Graph → List (Nat × Nat)
  | _, [] => []
  | c, g :: t => shiftEdges c g.edges ++ unionEdges (c + g.NumVertices) t

theorem wf_edges_lt (g : Graph) (hwf : g.WellFormed) :
    ∀ e ∈ g.edges, e.1 < g.NumVertices ∧ e.2 < g.NumVertices :=
  hwf.2

theorem unionEdges_bounds (gs : List Graph) (hwf : ∀ g ∈ gs, g.WellFormed) :
    ∀ c e, e ∈ unionEdges c gs →
      c ≤ e.1 ∧ e.1 < c + sumV gs ∧ c ≤ e.2 ∧ e.2 < c + sumV gs := by
  induction gs with
  | nil => intro c e he; simp [unionEdges] at he
  | cons g t ih =>
    intro c e he
    simp only [unionEdges, List.mem_append] at he
    rcases he with he | he
    · simp only [shiftEdges, List.mem_map] at he
      obtain ⟨e0, he0, rfl⟩ := he
      have := wf_edges_lt g (hwf g (by simp)) e0 he0
      simp only [sumV, List.map_cons, List.sum_cons]
      omega
    · have := ih (fun h hh => hwf h (by simp [hh])) (c + g.NumVertices) e he
      simp only [sumV, List.map_cons, List.sum_cons] at this ⊢
      omega

theorem disjointUnionAux_eq (gs : List Graph) (hwf : ∀ g ∈ gs, g.WellFormed) :
    ∀ (rst : Graph) (c : Nat),
      rst.adjlist_.length = c → rst.reverse_adjlist_.length = c →
      disjointUnionAux rst c gs =
        (rst.AddVertices (sumV gs)).addEdges (unionEdges c gs) := by
  induction gs with
  | nil =>
    intro rst c _ _
    show rst = (rst.AddVertices (sumV [])).addEdges (unionEdges c [])
    simp [sumV, unionEdges, AddVertices_zero, Graph.addEdges]
  | cons g t ih =>
    intro rst c hadj hrev
    show disjointUnionAux
        ((rst.AddVertices g.NumVertices).addEdges (shiftEdges c g.edges))
        (c + g.NumVertices) t = _
    rw [ih (fun h hh => hwf h (by simp [hh])) _ (c + g.NumVertices)
      (by rw [addEdges_adj_length]; simp [Graph.AddVertices, hadj])
      (by rw [addEdges_rev_length]; simp [Graph.AddVertices, hrev])]
    rw [addEdges_AddVertices (shiftEdges c g.edges)
      (rst.AddVertices g.NumVertices) (sumV t) (by
        intro e he
        simp only [shiftEdges, List.mem_map] at he
        obtain ⟨e0, he0, rfl⟩ := he
        have := wf_edges_lt g (hwf g (by simp)) e0 he0
        constructor
        · simp [Graph.AddVertices, hadj]; omega
        · simp [Graph.AddVertices, hrev]; omega)]
    rw [AddVertices_AddVertices, addEdges_append]
    show _ = (rst.AddVertices (sumV (g :: t))).addEdges (unionEdges c (g :: t))
    rw [show sumV (g :: t) = g.NumVertices + sumV t from by
      simp [sumV]]
    rfl

theorem DisjointUnion_eq_build (gs : List Graph) (hwf : ∀ g ∈ gs, g.WellFormed) :
    DisjointUnion gs = buildGraph (sumV gs) (unionEdges 0 gs) := by
  unfold DisjointUnion buildGraph
  exact disjointUnionAux_eq gs hwf Graph.empty 0 rfl rfl

def sumE (gs : List Graph) : Nat := (gs.map (fun h => h.edges.length)).sum

theorem unionEdges_append (xs : List Graph) : ∀ (ys : List Graph) (c : Nat),
    unionEdges c (xs ++ ys) = unionEdges c xs ++ unionEdges (c + sumV xs) ys := by
  induction xs with
  | nil => intro ys c; simp [unionEdges, sumV]
  | cons g t ih =>
    intro ys c
    show shiftEdges c g.edges ++ unionEdges (c + g.NumVertices) (t.append ys) = _
    have ih2 : unionEdges (c + g.NumVertices) (t.append ys) =
        unionEdges (c + g.NumVertices) t ++
          unionEdges (c + g.NumVertices + sumV t) ys := ih ys (c + g.NumVertices)
    rw [ih2, show c + g.NumVertices + sumV t = c + sumV (g :: t) from by
      simp [sumV]; omega]
    show _ = (shiftEdges c g.edges ++ unionEdges (c + g.NumVertices) t) ++
      unionEdges (c + sumV (g :: t)) ys
    rw [List.append_assoc]

theorem unionEdges_length (gs : List Graph) : ∀ c,
    (unionEdges c gs).length = sumE gs := by
  induction gs with
  | nil => intro c; rfl
  | cons g t ih =>
    intro c
    simp [unionEdges, shiftEdges, sumE] at ih ⊢
    exact ih (c + g.NumVertices)

theorem EdgeList.mapEL_mapEL (el : EdgeList) (f1 g1 f2 g2 : Nat → Nat) :
    (el.mapEL f1 g1).mapEL f2 g2 =
      el.mapEL (fun x => f2 (f1 x)) (fun x => g2 (g1 x)) := by
  simp [EdgeList.mapEL, List.map_map, Function.comp]

theorem outEntriesFrom_base (u b : Nat) (es : List (Nat × Nat)) : ∀ k,
    outEntriesFrom u (b + k) es =
      (outEntriesFrom u k es).mapEL id (fun x => x + b) := by
  induction es with
  | nil => intro k; simp [outEntriesFrom, EdgeList.mapEL]
  | cons e rest ih =>
    intro k
    obtain ⟨s, d⟩ := e
    simp only [outEntriesFrom]
    rw [show b + k + 1 = b + (k + 1) from by omega, ih (k + 1)]
    by_cases hsu : s = u
    · rw [if_pos hsu, if_pos hsu]
      simp [EdgeList.mapEL, Nat.add_comm]
    · rw [if_neg hsu, if_neg hsu]

theorem inEntriesFrom_base (u b : Nat) (es : List (Nat × Nat)) : ∀ k,
    inEntriesFrom u (b + k) es =
      (inEntriesFrom u k es).mapEL id (fun x => x + b) := by
  induction es with
  | nil => intro k; simp [inEntriesFrom, EdgeList.mapEL]
  | cons e rest ih =>
    intro k
    obtain ⟨s, d⟩ := e
    simp only [inEntriesFrom]
    rw [show b + k + 1 = b + (k + 1) from by omega, ih (k + 1)]
    by_cases hdu : d = u
    · rw [if_pos hdu, if_pos hdu]
      simp [EdgeList.mapEL, Nat.add_comm]
    · rw [if_neg hdu, if_neg hdu]

/-- Pointwise block decomposition of the union's forward adjacency: the
entries of vertex `sumV gs1 + u` come exactly from graph `g`, shifted. -/
theorem out_union_block (gs1 : List Graph) (g : Graph) (gs2 : List Graph)
    (hwf : ∀ h ∈ gs1 ++ g :: gs2, h.WellFormed) (u : Nat) (hu : u < g.NumVertices) :
    outEntriesFrom (sumV gs1 + u) 0 (unionEdges 0 (gs1 ++ g :: gs2)) =
      (outEntriesFrom u 0 g.edges).mapEL
        (fun x => x + sumV gs1) (fun x => x + sumE gs1) := by
  rw [unionEdges_append gs1 (g :: gs2) 0, outEntriesFrom_append]
  rw [outEntriesFrom_no_src _ _ (by
    intro e he
    have := unionEdges_bounds gs1 (fun h hh => hwf h (by simp [hh])) 0 e he
    omega) 0]
  rw [EdgeList.nil_append]
  rw [unionEdges_length gs1 0]
  show outEntriesFrom (sumV gs1 + u) (0 + sumE gs1)
      (unionEdges (0 + sumV gs1) (g :: gs2)) = _
  rw [Nat.zero_add, Nat.zero_add]
  show outEntriesFrom (sumV gs1 + u) (sumE gs1)
      (shiftEdges (sumV gs1) g.edges ++ unionEdges (sumV gs1 + g.NumVertices) gs2) = _
  rw [outEntriesFrom_append]
  rw [outEntriesFrom_no_src (sumV gs1 + u)
    (unionEdges (sumV gs1 + g.NumVertices) gs2) (by
    intro e he
    have := unionEdges_bounds gs2 (fun h hh => hwf h (by simp [hh]))
      (sumV gs1 + g.NumVertices) e he
    omega) (sumE gs1 + (shiftEdges (sumV gs1) g.edges).length)]
  rw [EdgeList.append_nil]
  rw [outEntriesFrom_shift u (sumV gs1) g.edges (sumE gs1)]
  rw [show sumE gs1 = sumE gs1 + 0 from by omega,
    outEntriesFrom_base u (sumE gs1) g.edges 0]
  rw [EdgeList.mapEL_mapEL]
  simp [EdgeList.mapEL]

/-- Pointwise block decomposition of the union's reverse adjacency. -/
theorem in_union_block (gs1 : List Graph) (g : Graph) (gs2 : List Graph)
    (hwf : ∀ h ∈ gs1 ++ g :: gs2, h.WellFormed) (u : Nat) (hu : u < g.NumVertices) :
    inEntriesFrom (sumV gs1 + u) 0 (unionEdges 0 (gs1 ++ g :: gs2)) =
      (inEntriesFrom u 0 g.edges).mapEL
        (fun x => x + sumV gs1) (fun x => x + sumE gs1) := by
  rw [unionEdges_append gs1 (g :: gs2) 0, inEntriesFrom_append]
  rw [inEntriesFrom_no_dst _ _ (by
    intro e he
    have := unionEdges_bounds gs1 (fun h hh => hwf h (by simp [hh])) 0 e he
    omega) 0]
  rw [EdgeList.nil_append]
  rw [unionEdges_length gs1 0]
  show inEntriesFrom (sumV gs1 + u) (0 + sumE gs1)
      (unionEdges (0 + sumV gs1) (g :: gs2)) = _
  rw [Nat.zero_add, Nat.zero_add]
  show inEntriesFrom (sumV gs1 + u) (sumE gs1)
      (shiftEdges (sumV gs1) g.edges ++ unionEdges (sumV gs1 + g.NumVertices) gs2) = _
  rw [inEntriesFrom_append]
  rw [inEntriesFrom_no_dst (sumV gs1 + u)
    (unionEdges (sumV gs1 + g.NumVertices) gs2) (by
    intro e he
    have := unionEdges_bounds gs2 (fun h hh => hwf h (by simp [hh]))
      (sumV gs1 + g.NumVertices) e he
    omega) (sumE gs1 + (shiftEdges (sumV gs1) g.edges).length)]
  rw [EdgeList.append_nil]
  rw [inEntriesFrom_shift u (sumV gs1) g.edges (sumE gs1)]
  rw [show sumE gs1 = sumE gs1 + 0 from by omega,
    inEntriesFrom_base u (sumE gs1) g.edges 0]
  rw [EdgeList.mapEL_mapEL]
  simp [EdgeList.mapEL]

theorem slice_range_map {α : Type} (f : Nat → α) (N a b : Nat) (h : a + b ≤ N) :
    (((List.range N).map f).drop a).take b =
      (List.range b).map (fun u => f (a + u)) := by
  apply listExtGetD (f 0)
  · simp only [List.length_take, List.length_drop, List.length_map,
      List.length_range]
    omega
  · intro i hi
    simp only [List.length_take, List.length_drop, List.length_map,
      List.length_range] at hi
    have hib : i < b := by omega
    rw [getD_take' _ _ _ _ hib, getD_drop']
    rw [getD_map_range _ _ _ _ (by omega : a + i < N)]
    rw [getD_map_range _ _ _ _ hib]

theorem sum_map_add (f g : Nat → Nat) (l : List Nat) :
    (l.map (fun u => f u + g u)).sum = (l.map f).sum + (l.map g).sum := by
  induction l with
  | nil => rfl
  | cons a t ih => simp [ih]; omega

theorem sum_indicator_range (s n : Nat) :
    ((List.range n).map (fun u => if s = u then 1 else 0)).sum =
      if s < n then 1 else 0 := by
  induction n with
  | zero => simp
  | succ m ih =>
    rw [List.range_succ, List.map_append, List.sum_append, ih]
    simp only [List.map_cons, List.map_nil, List.sum_cons, List.sum_nil]
    split_ifs <;> omega

theorem sum_outEntries_succ_length (es : List (Nat × Nat)) (n : Nat)
    (h : ∀ e ∈ es, e.1 < n) : ∀ b,
    ((List.range n).map (fun u => (outEntriesFrom u b es).succ.length)).sum =
      es.length := by
  induction es with
  | nil =>
    intro b
    simp [outEntriesFrom]
  | cons e rest ih =>
    intro b
    obtain ⟨s, d⟩ := e
    have hpt : ∀ u, (outEntriesFrom u b ((s, d) :: rest)).succ.length =
        (if s = u then 1 else 0) + (outEntriesFrom u (b + 1) rest).succ.length := by
      intro u
      simp only [outEntriesFrom]
      by_cases hsu : s = u
      · rw [if_pos hsu, if_pos hsu]
        simp [Nat.add_comm]
      · rw [if_neg hsu, if_neg hsu]
        simp
    rw [List.map_congr_left (fun u _ => hpt u), sum_map_add, sum_indicator_range]
    rw [ih (fun e he => h e (by simp [he])) (b + 1)]
    rw [if_pos (h (s, d) (by simp))]
    simp [Nat.add_comm]

theorem wf_adjlist (g : Graph) (hwf : g.WellFormed) :
    g.adjlist_ =
      (List.range g.NumVertices).map (fun u => outEntriesFrom u 0 g.edges) := by
  conv_lhs => rw [hwf.1]
  rw [buildGraph_adjlist]

theorem wf_rev_adjlist (g : Graph) (hwf : g.WellFormed) :
    g.reverse_adjlist_ =
      (List.range g.NumVertices).map (fun u => inEntriesFrom u 0 g.edges) := by
  conv_lhs => rw [hwf.1]
  rw [buildGraph_rev_adjlist]

theorem wf_src (g : Graph) (hwf : g.WellFormed) :
    g.all_edges_src_ = g.edges.map Prod.fst := by
  conv_lhs => rw [hwf.1]
  rw [buildGraph_src]

theorem wf_dst (g : Graph) (hwf : g.WellFormed) :
    g.all_edges_dst_ = g.edges.map Prod.snd := by
  conv_lhs => rw [hwf.1]
  rw [buildGraph_dst]

theorem wf_edges_length (g : Graph) (hwf : g.WellFormed) :
    g.edges.length = g.NumEdges := by
  unfold Graph.NumEdges
  rw [wf_src g hwf]
  simp

theorem sumV_append (gs1 gs2 : List Graph) :
    sumV (gs1 ++ gs2) = sumV gs1 + sumV gs2 := by
  simp [sumV]

theorem union_adj_slice (gs1 : List Graph) (g : Graph) (gs2 : List Graph)
    (hwf : ∀ h ∈ gs1 ++ g :: gs2, h.WellFormed) :
    (((DisjointUnion (gs1 ++ g :: gs2)).adjlist_.drop (sumV gs1)).take
        g.NumVertices) =
      g.adjlist_.map (EdgeList.mapEL (fun x => x + sumV gs1)
        (fun x => x + sumE gs1)) := by
  rw [DisjointUnion_eq_build _ hwf, buildGraph_adjlist]
  rw [slice_range_map _ _ _ _ (by
    rw [show sumV (gs1 ++ g :: gs2) = sumV gs1 + (g.NumVertices + sumV gs2)
      from by simp [sumV_append, sumV]]
    omega)]
  rw [wf_adjlist g (hwf g (by simp)), List.map_map]
  apply List.map_congr_left
  intro u hu
  exact out_union_block gs1 g gs2 hwf u (List.mem_range.mp hu)

theorem union_rev_slice (gs1 : List Graph) (g : Graph) (gs2 : List Graph)
    (hwf : ∀ h ∈ gs1 ++ g :: gs2, h.WellFormed) :
    (((DisjointUnion (gs1 ++ g :: gs2)).reverse_adjlist_.drop (sumV gs1)).take
        g.NumVertices) =
      g.reverse_adjlist_.map (EdgeList.mapEL (fun x => x + sumV gs1)
        (fun x => x + sumE gs1)) := by
  rw [DisjointUnion_eq_build _ hwf, buildGraph_rev_adjlist]
  rw [slice_range_map _ _ _ _ (by
    rw [show sumV (gs1 ++ g :: gs2) = sumV gs1 + (g.NumVertices + sumV gs2)
      from by simp [sumV_append, sumV]]
    omega)]
  rw [wf_rev_adjlist g (hwf g (by simp)), List.map_map]
  apply List.map_congr_left
  intro u hu
  exact in_union_block gs1 g gs2 hwf u (List.mem_range.mp hu)

theorem mapEL_succ_length (f1 f2 : Nat → Nat) (el : EdgeList) :
    (el.mapEL f1 f2).succ.length = el.succ.length := by
  simp [EdgeList.mapEL]

theorem union_partitionNumEdges (gs1 : List Graph) (g : Graph) (gs2 : List Graph)
    (hwf : ∀ h ∈ gs1 ++ g :: gs2, h.WellFormed) :
    partitionNumEdges (DisjointUnion (gs1 ++ g :: gs2)) (sumV gs1) g.NumVertices =
      g.edges.length := by
  unfold partitionNumEdges
  rw [union_adj_slice gs1 g gs2 hwf, List.map_map]
  have hcong : List.map ((fun el : EdgeList => el.succ.length) ∘ EdgeList.mapEL
      (fun x => x + sumV gs1) fun x => x + sumE gs1) g.adjlist_ =
      List.map (fun el : EdgeList => el.succ.length) g.adjlist_ :=
    List.map_congr_left (fun el _ => mapEL_succ_length _ _ el)
  rw [hcong]
  rw [wf_adjlist g (hwf g (by simp)), List.map_map]
  exact sum_outEntries_succ_length g.edges g.NumVertices
    (fun e he => (wf_edges_lt g (hwf g (by simp)) e he).1) 0

theorem union_src_slice (gs1 : List Graph) (g : Graph) (gs2 : List Graph)
    (hwf : ∀ h ∈ gs1 ++ g :: gs2, h.WellFormed) :
    (((DisjointUnion (gs1 ++ g :: gs2)).all_edges_src_.drop (sumE gs1)).take
        g.edges.length) =
      g.all_edges_src_.map (fun x => x + sumV gs1) := by
  rw [DisjointUnion_eq_build _ hwf, buildGraph_src]
  rw [unionEdges_append gs1 (g :: gs2) 0, List.map_append]
  rw [show sumE gs1 = ((unionEdges 0 gs1).map Prod.fst).length from by
    simp [unionEdges_length]]
  rw [List.drop_left, Nat.zero_add]
  show ((((shiftEdges (sumV gs1) g.edges ++
      unionEdges (sumV gs1 + g.NumVertices) gs2)).map Prod.fst).take
        g.edges.length) = _
  rw [List.map_append]
  rw [show g.edges.length = ((shiftEdges (sumV gs1) g.edges).map Prod.fst).length
    from by simp [shiftEdges]]
  rw [List.take_left]
  rw [wf_src g (hwf g (by simp))]
  simp [shiftEdges, List.map_map, Function.comp]

theorem union_dst_slice (gs1 : List Graph) (g : Graph) (gs2 : List Graph)
    (hwf : ∀ h ∈ gs1 ++ g :: gs2, h.WellFormed) :
    (((DisjointUnion (gs1 ++ g :: gs2)).all_edges_dst_.drop (sumE gs1)).take
        g.edges.length) =
      g.all_edges_dst_.map (fun x => x + sumV gs1) := by
  rw [DisjointUnion_eq_build _ hwf, buildGraph_dst]
  rw [unionEdges_append gs1 (g :: gs2) 0, List.map_append]
  rw [show sumE gs1 = ((unionEdges 0 gs1).map Prod.snd).length from by
    simp [unionEdges_length]]
  rw [List.drop_left, Nat.zero_add]
  show ((((shiftEdges (sumV gs1) g.edges ++
      unionEdges (sumV gs1 + g.NumVertices) gs2)).map Prod.snd).take
        g.edges.length) = _
  rw [List.map_append]
  rw [show g.edges.length = ((shiftEdges (sumV gs1) g.edges).map Prod.snd).length
    from by simp [shiftEdges]]
  rw [List.take_left]
  rw [wf_dst g (hwf g (by simp))]
  simp [shiftEdges, List.map_map, Function.comp]

theorem offsetDown_mapEL (no ne : Nat) (el : EdgeList) :
    EdgeList.offsetDown no ne
      (el.mapEL (fun x => x + no) (fun x => x + ne)) = el := by
  simp only [EdgeList.offsetDown, EdgeList.mapEL, List.map_map]
  have h1 : ∀ x ∈ el.succ, ((fun x => x - no) ∘ fun x => x + no) x = x :=
    fun x _ => by simp
  have h2 : ∀ x ∈ el.edge_id, ((fun x => x - ne) ∘ fun x => x + ne) x = x :=
    fun x _ => by simp
  rw [List.map_congr_left h1, List.map_congr_left h2, List.map_id', List.map_id']

theorem sub_cancel_map (c : Nat) (l : List Nat) :
    (l.map (fun x => x + c)).map (fun x => x - c) = l := by
  rw [List.map_map]
  have h1 : ∀ x ∈ l, ((fun x => x - c) ∘ fun x => x + c) x = x :=
    fun x _ => by simp
  rw [List.map_congr_left h1, List.map_id']

/-- The partition piece at the offsets of graph `g` inside the union
recovers `g` exactly. -/
theorem union_piece (gs1 : List Graph) (g : Graph) (gs2 : List Graph)
    (hwf : ∀ h ∈ gs1 ++ g :: gs2, h.WellFormed) :
    partitionPiece (DisjointUnion (gs1 ++ g :: gs2)) (sumV gs1) (sumE gs1)
      g.NumVertices = g := by
  simp only [partitionPiece]
  rw [union_partitionNumEdges gs1 g gs2 hwf]
  rw [union_adj_slice gs1 g gs2 hwf, union_rev_slice gs1 g gs2 hwf]
  rw [union_src_slice gs1 g gs2 hwf, union_dst_slice gs1 g gs2 hwf]
  rw [List.map_map, List.map_map]
  have hadj : List.map (EdgeList.offsetDown (sumV gs1) (sumE gs1) ∘
      EdgeList.mapEL (fun x => x + sumV gs1) fun x => x + sumE gs1)
      g.adjlist_ = g.adjlist_ :=
    (List.map_congr_left (fun el _ =>
      offsetDown_mapEL (sumV gs1) (sumE gs1) el)).trans (List.map_id' _)
  have hrev : List.map (EdgeList.offsetDown (sumV gs1) (sumE gs1) ∘
      EdgeList.mapEL (fun x => x + sumV gs1) fun x => x + sumE gs1)
      g.reverse_adjlist_ = g.reverse_adjlist_ :=
    (List.map_congr_left (fun el _ =>
      offsetDown_mapEL (sumV gs1) (sumE gs1) el)).trans (List.map_id' _)
  rw [hadj, hrev, sub_cancel_map, sub_cancel_map]

theorem sumE_append_one (gs1 : List Graph) (g : Graph) :
    sumE (gs1 ++ [g]) = sumE gs1 + g.edges.length := by
  simp [sumE]

theorem sumV_append_one (gs1 : List Graph) (g : Graph) :
    sumV (gs1 ++ [g]) = sumV gs1 + g.NumVertices := by
  simp [sumV]

/-- Partitioning the union at the cumulative offsets of the already
consumed graphs `gs1` returns exactly the remaining graphs `gs2`. -/
theorem roundtrip_aux (gs2 : List Graph) : ∀ (gs1 : List Graph),
    (∀ h ∈ gs1 ++ gs2, h.WellFormed) →
    partitionAux (DisjointUnion (gs1 ++ gs2)) (sumV gs1) (sumE gs1)
      (gs2.map Graph.NumVertices) = gs2 := by
  induction gs2 with
  | nil => intro gs1 _; rfl
  | cons g t ih =>
    intro gs1 hwf
    show partitionPiece (DisjointUnion (gs1 ++ g :: t)) (sumV gs1) (sumE gs1)
        g.NumVertices ::
      partitionAux (DisjointUnion (gs1 ++ g :: t)) (sumV gs1 + g.NumVertices)
        (sumE gs1 + partitionNumEdges (DisjointUnion (gs1 ++ g :: t))
          (sumV gs1) g.NumVertices)
        (t.map Graph.NumVertices) = g :: t
    rw [union_piece gs1 g t hwf]
    rw [union_partitionNumEdges gs1 g t hwf]
    have hassoc : gs1 ++ g :: t = (gs1 ++ [g]) ++ t := by simp
    rw [show sumV gs1 + g.NumVertices = sumV (gs1 ++ [g]) from
      (sumV_append_one gs1 g).symm]
    rw [show sumE gs1 + g.edges.length = sumE (gs1 ++ [g]) from
      (sumE_append_one gs1 g).symm]
    rw [hassoc]
    rw [ih (gs1 ++ [g]) (by intro h hh; exact hwf h (by
      rw [hassoc]; exact hh))]

/-- C1: partitioning the disjoint union of well-formed graphs by their
vertex counts reproduces the input graphs exactly — forward adjacency
lists, reverse adjacency lists and the edge-id-indexed source and
destination arrays all coincide, so per-graph edge ordering is
preserved. -/
theorem c1_union_partition_roundtrip (gs : List Graph)
    (hwf : ∀ g ∈ gs, g.WellFormed) :
    DisjointPartitionBySizes (DisjointUnion gs) (gs.map Graph.NumVertices) =
      Except.ok gs := by
  unfold DisjointPartitionBySizes
  have hnum : (DisjointUnion gs).NumVertices = sumV gs := by
    rw [DisjointUnion_eq_build gs hwf, buildGraph_numVertices]
  rw [if_pos (by rw [hnum]; rfl)]
  have h := roundtrip_aux gs [] (by simpa using hwf)
  simpa using h

/-- Witness for C1 at the two example graphs of the specification. -/
theorem c1_union_partition_roundtrip_witness :
    (∀ g ∈ [buildGraph 3 [(0, 1), (1, 2)], buildGraph 2 [(0, 1)]], g.WellFormed)
    ∧ DisjointPartitionBySizes
        (DisjointUnion [buildGraph 3 [(0, 1), (1, 2)], buildGraph 2 [(0, 1)]])
        ([buildGraph 3 [(0, 1), (1, 2)], buildGraph 2 [(0, 1)]].map
          Graph.NumVertices) =
      Except.ok [buildGraph 3 [(0, 1), (1, 2)], buildGraph 2 [(0, 1)]] :=
  ⟨by decide, c1_union_partition_roundtrip _ (by decide)⟩

theorem unionEdges_fst_closed (gs : List Graph)
    (hwf : ∀ g ∈ gs, g.WellFormed) : ∀ c,
    (unionEdges c gs).map Prod.fst =
      catMap (fun k => (gs.getD k Graph.empty).all_edges_src_.map
        (fun x => x + (c + ((gs.take k).map Graph.NumVertices).sum)))
        (List.range gs.length) := by
  induction gs with
  | nil => intro c; rfl
  | cons g t ih =>
    intro c
    simp only [unionEdges, List.map_append, List.length_cons,
      List.range_succ_eq_map, catMap, catMap_map]
    congr 1
    · simp only [List.getD_cons_zero, List.take_zero, List.map_nil,
        List.sum_nil, Nat.add_zero]
      rw [wf_src g (hwf g (by simp))]
      simp [shiftEdges, List.map_map, Function.comp]
    · rw [ih (fun h hh => hwf h (by simp [hh])) (c + g.NumVertices)]
      apply catMap_congr
      intro k hk
      simp [Nat.add_assoc]

theorem unionEdges_snd_closed (gs : List Graph)
    (hwf : ∀ g ∈ gs, g.WellFormed) : ∀ c,
    (unionEdges c gs).map Prod.snd =
      catMap (fun k => (gs.getD k Graph.empty).all_edges_dst_.map
        (fun x => x + (c + ((gs.take k).map Graph.NumVertices).sum)))
        (List.range gs.length) := by
  induction gs with
  | nil => intro c; rfl
  | cons g t ih =>
    intro c
    simp only [unionEdges, List.map_append, List.length_cons,
      List.range_succ_eq_map, catMap, catMap_map]
    congr 1
    · simp only [List.getD_cons_zero, List.take_zero, List.map_nil,
        List.sum_nil, Nat.add_zero]
      rw [wf_dst g (hwf g (by simp))]
      simp [shiftEdges, List.map_map, Function.comp]
    · rw [ih (fun h hh => hwf h (by simp [hh])) (c + g.NumVertices)]
      apply catMap_congr
      intro k hk
      simp [Nat.add_assoc]

/-- C2: the mutable `DisjointUnion` has the sum of the vertex counts as
vertex count; its source and destination arrays are the concatenation of
each input's arrays shifted by the cumulative vertex count of the
preceding graphs, with edge ids reassigned sequentially by position; the
whole edge list is each graph's edge list re-inserted verbatim in input
order (no deduplication of parallel edges or self-loops). -/
theorem c2_disjoint_union_shape (gs : List Graph)
    (hwf : ∀ g ∈ gs, g.WellFormed) :
    (DisjointUnion gs).NumVertices = (gs.map Graph.NumVertices).sum
    ∧ (DisjointUnion gs).all_edges_src_ =
        catMap (fun k => (gs.getD k Graph.empty).all_edges_src_.map
          (fun x => x + ((gs.take k).map Graph.NumVertices).sum))
          (List.range gs.length)
    ∧ (DisjointUnion gs).all_edges_dst_ =
        catMap (fun k => (gs.getD k Graph.empty).all_edges_dst_.map
          (fun x => x + ((gs.take k).map Graph.NumVertices).sum))
          (List.range gs.length)
    ∧ (DisjointUnion gs).edges = unionEdges 0 gs := by
  have hb := DisjointUnion_eq_build gs hwf
  refine ⟨?_, ?_, ?_, ?_⟩
  · rw [hb, buildGraph_numVertices]
    rfl
  · rw [hb, buildGraph_src, unionEdges_fst_closed gs hwf 0]
    apply catMap_congr
    intro k hk
    simp
  · rw [hb, buildGraph_dst, unionEdges_snd_closed gs hwf 0]
    apply catMap_congr
    intro k hk
    simp
  · rw [hb, buildGraph_edges]

/-- Witness for C2 at the two example graphs of the specification: 5
vertices and edges `[(0,1),(1,2),(3,4)]`. -/
theorem c2_disjoint_union_shape_witness :
    (∀ g ∈ [buildGraph 3 [(0, 1), (1, 2)], buildGraph 2 [(0, 1)]], g.WellFormed)
    ∧ (DisjointUnion [buildGraph 3 [(0, 1), (1, 2)],
        buildGraph 2 [(0, 1)]]).NumVertices = 5
    ∧ (DisjointUnion [buildGraph 3 [(0, 1), (1, 2)],
        buildGraph 2 [(0, 1)]]).edges = [(0, 1), (1, 2), (3, 4)] :=
  ⟨by decide,
   (c2_disjoint_union_shape _ (by decide)).1.trans (by decide),
   (c2_disjoint_union_shape _ (by decide)).2.2.2.trans (by decide)⟩

/-! ### Line graph -/

theorem mem_lineGraphEdgesFrom (g : Graph) (bt : Bool) (i j : Nat)
    (es0 : List (Nat × Nat)) : ∀ i0,
    ((i, j) ∈ lineGraphEdgesFrom g bt i0 es0 ↔
      ∃ k u v w, es0[k]? = some (u, v) ∧ i = i0 + k ∧
        (w, j) ∈ (adjAt g v).pairs ∧
        (bt || (!bt && decide (w ≠ u))) = true) := by
  induction es0 with
  | nil =>
    intro i0
    simp [lineGraphEdgesFrom]
  | cons e rest ih =>
    intro i0
    obtain ⟨u0, v0⟩ := e
    simp only [lineGraphEdgesFrom, List.mem_append, ih (i0 + 1)]
    constructor
    · rintro (hin | ⟨k, u, v, w, hk, hi, hwj, hguard⟩)
      · rw [List.mem_filterMap] at hin
        obtain ⟨q, hq, hsome⟩ := hin
        by_cases hg : (bt || (!bt && decide (q.1 ≠ u0))) = true
        · rw [if_pos hg] at hsome
          injection hsome with hpair
          injection hpair with hi0 hq2
          refine ⟨0, u0, v0, q.1, by simp, by omega, ?_, hg⟩
          rw [← hq2]
          simpa using hq
        · rw [if_neg hg] at hsome
          cases hsome
      · exact ⟨k + 1, u, v, w, by simpa using hk, by omega, hwj, hguard⟩
    · rintro ⟨k, u, v, w, hk, hi, hwj, hguard⟩
      cases k with
      | zero =>
        left
        rw [List.getElem?_cons_zero] at hk
        injection hk with hk2
        injection hk2 with hu hv
        rw [List.mem_filterMap]
        refine ⟨(w, j), ?_, ?_⟩
        · rw [hv]
          exact hwj
        · rw [if_pos (by rw [← hu] at hguard; simpa using hguard)]
          have : i = i0 := by omega
          rw [this]
      | succ k2 =>
        right
        exact ⟨k2, u, v, w, by simpa using hk, by omega, hwj, hguard⟩

theorem lineGraph_edges (g : Graph) (bt : Bool) :
    (LineGraph g bt).edges = lineGraphEdges g bt :=
  buildGraph_edges g.NumEdges (lineGraphEdges g bt)

theorem guard_iff (bt : Bool) (w u : Nat) :
    ((bt || (!bt && decide (w ≠ u))) = true) ↔ (bt = true ∨ w ≠ u) := by
  cases bt <;> simp

/-- Membership in the line graph's edge list, for a well-formed input
graph. -/
theorem mem_lineGraphEdges (g : Graph) (bt : Bool) (hwf : g.WellFormed)
    (i j : Nat) :
    (i, j) ∈ lineGraphEdges g bt ↔
      ∃ u v w, g.edges[i]? = some (u, v) ∧ g.edges[j]? = some (v, w) ∧
        (bt = true ∨ w ≠ u) := by
  unfold lineGraphEdges
  rw [mem_lineGraphEdgesFrom g bt i j g.edges 0]
  constructor
  · rintro ⟨k, u, v, w, hk, hi, hwj, hguard⟩
    have hk' : i = k := by omega
    subst hk'
    have hvlt : v < g.NumVertices :=
      (wf_edges_lt g hwf (u, v) (List.mem_iff_getElem?.mpr ⟨i, hk⟩)).2
    rw [show adjAt g v = outEntriesFrom v 0 g.edges from by
      conv_lhs => rw [hwf.1]
      exact adjAt_buildGraph _ _ v hvlt] at hwj
    rw [mem_pairs_outEntriesFrom v g.edges w j 0] at hwj
    obtain ⟨p, hp, hjp⟩ := hwj
    have : j = p := by omega
    subst this
    exact ⟨u, v, w, hk, hp, (guard_iff bt w u).mp hguard⟩
  · rintro ⟨u, v, w, hi, hj, hg⟩
    have hvlt : v < g.NumVertices :=
      (wf_edges_lt g hwf (u, v) (List.mem_iff_getElem?.mpr ⟨i, hi⟩)).2
    refine ⟨i, u, v, w, hi, by omega, ?_, (guard_iff bt w u).mpr hg⟩
    rw [show adjAt g v = outEntriesFrom v 0 g.edges from by
      conv_lhs => rw [hwf.1]
      exact adjAt_buildGraph _ _ v hvlt]
    rw [mem_pairs_outEntriesFrom v g.edges w j 0]
    exact ⟨j, hj, by omega⟩

/-- C5: the line graph has one vertex per edge of `g`; it contains edge
`(i, j)` exactly when edge `i` ends where edge `j` starts, except that
with backtracking disabled the pairs closing an immediate 2-cycle are
skipped; in particular `LineGraph(g, false)` contains no pair of mutual
reverse edges. -/
theorem c5_line_graph (g : Graph) (bt : Bool) (hwf : g.WellFormed) :
    (LineGraph g bt).NumVertices = g.NumEdges
    ∧ (∀ i j, (i, j) ∈ (LineGraph g bt).edges ↔
        ∃ u v w, g.edges[i]? = some (u, v) ∧ g.edges[j]? = some (v, w) ∧
          (bt = true ∨ w ≠ u))
    ∧ (bt = false → ∀ i j u v, g.edges[i]? = some (u, v) →
        g.edges[j]? = some (v, u) → (i, j) ∉ (LineGraph g bt).edges) := by
  refine ⟨buildGraph_numVertices g.NumEdges (lineGraphEdges g bt), ?_, ?_⟩
  · intro i j
    rw [lineGraph_edges]
    exact mem_lineGraphEdges g bt hwf i j
  · intro hbt i j u v hi hj hmem
    rw [lineGraph_edges, mem_lineGraphEdges g bt hwf i j] at hmem
    obtain ⟨u2, v2, w2, hi2, hj2, hg2⟩ := hmem
    rw [hi] at hi2
    injection hi2 with hp2
    injection hp2 with hu2 hv2
    rw [hj, ← hv2] at hj2
    injection hj2 with hp3
    injection hp3 with hv3 hw3
    subst hbt
    rcases hg2 with hg2 | hg2
    · cases hg2
    · exact hg2 (by rw [← hw3, hu2])

/-- Witness for C5 at the 2-cycle graph with backtracking disabled. -/
theorem c5_line_graph_witness :
    (buildGraph 2 [(0, 1), (1, 0)]).WellFormed
    ∧ (LineGraph (buildGraph 2 [(0, 1), (1, 0)]) false).NumVertices =
        (buildGraph 2 [(0, 1), (1, 0)]).NumEdges
    ∧ ((0, 1) ∈ (LineGraph (buildGraph 2 [(0, 1), (1, 0)]) false).edges ↔
        ∃ u v w, (buildGraph 2 [(0, 1), (1, 0)]).edges[0]? = some (u, v) ∧
          (buildGraph 2 [(0, 1), (1, 0)]).edges[1]? = some (v, w) ∧
          (false = true ∨ w ≠ u)) :=
  ⟨by decide,
   (c5_line_graph (buildGraph 2 [(0, 1), (1, 0)]) false (by decide)).1,
   (c5_line_graph (buildGraph 2 [(0, 1), (1, 0)]) false (by decide)).2.1 0 1⟩

/-! ### The adjacency-list invariant -/

/-- Edge id `i` maps to the endpoint pair recorded in the parallel
arrays, and that pair appears with edge id `i` in the forward adjacency
list of its source and the reverse adjacency list of its destination. -/
def Graph.EdgeInvariant (g : Graph) : Prop :=
  ∀ (i u v : Nat), g.all_edges_src_[i]? = some u →
    g.all_edges_dst_[i]? = some v →
    (v, i) ∈ (adjAt g u).pairs ∧ (u, i) ∈ (revAt g v).pairs

theorem invariant_of_build (n : Nat) (es : List (Nat × Nat))
    (hr : edgesInRange n es) : (buildGraph n es).EdgeInvariant := by
  intro i u v hu hv
  rw [buildGraph_src, List.getElem?_map] at hu
  rw [buildGraph_dst, List.getElem?_map] at hv
  cases he : es[i]? with
  | none => rw [he] at hu; cases hu
  | some e =>
    rw [he] at hu hv
    simp only [Option.map_some', Option.some.injEq] at hu hv
    have hmem : e ∈ es := List.mem_iff_getElem?.mpr ⟨i, he⟩
    have hlt := hr e hmem
    have heuv : es[i]? = some (u, v) := by
      rw [he, ← hu, ← hv]
    constructor
    · rw [adjAt_buildGraph n es u (by omega)]
      rw [mem_pairs_outEntriesFrom u es v i 0]
      exact ⟨i, heuv, by omega⟩
    · rw [revAt_buildGraph n es v (by omega)]
      rw [mem_pairs_inEntriesFrom v es u i 0]
      exact ⟨i, heuv, by omega⟩

theorem wf_invariant (g : Graph) (hwf : g.WellFormed) : g.EdgeInvariant := by
  have h := invariant_of_build g.NumVertices g.edges hwf.2
  rw [← hwf.1] at h
  exact h

theorem lineGraphEdges_in_range (g : Graph) (bt : Bool) (hwf : g.WellFormed) :
    edgesInRange g.NumEdges (lineGraphEdges g bt) := by
  intro e he
  obtain ⟨i, j⟩ := e
  rw [mem_lineGraphEdges g bt hwf i j] at he
  obtain ⟨u, v, w, hi, hj, _⟩ := he
  have h1 : i < g.edges.length := by
    by_contra hc
    rw [List.getElem?_eq_none (by omega)] at hi
    cases hi
  have h2 : j < g.edges.length := by
    by_contra hc
    rw [List.getElem?_eq_none (by omega)] at hj
    cases hj
  rw [wf_edges_length g hwf] at h1 h2
  exact ⟨h1, h2⟩

theorem union_edges_in_range (gs : List Graph) (hwf : ∀ g ∈ gs, g.WellFormed) :
    edgesInRange (sumV gs) (unionEdges 0 gs) := by
  intro e he
  have := unionEdges_bounds gs hwf 0 e he
  omega

/-- C10: line graphs, disjoint unions of well-formed graphs, and the
partition pieces recovered from such a union all satisfy the
adjacency-list invariant. -/
theorem c10_edge_invariant (gs : List Graph) (g : Graph) (bt : Bool)
    (hwfg : g.WellFormed) (hwfs : ∀ h ∈ gs, h.WellFormed) :
    (LineGraph g bt).EdgeInvariant
    ∧ (DisjointUnion gs).EdgeInvariant
    ∧ (∀ ps, DisjointPartitionBySizes (DisjointUnion gs)
        (gs.map Graph.NumVertices) = Except.ok ps →
        ∀ p ∈ ps, p.EdgeInvariant) := by
  refine ⟨?_, ?_, ?_⟩
  · exact invariant_of_build g.NumEdges (lineGraphEdges g bt)
      (lineGraphEdges_in_range g bt hwfg)
  · rw [DisjointUnion_eq_build gs hwfs]
    exact invariant_of_build (sumV gs) (unionEdges 0 gs)
      (union_edges_in_range gs hwfs)
  · intro ps hps p hp
    unfold DisjointPartitionBySizes at hps
    by_cases hsum : (gs.map Graph.NumVertices).sum = (DisjointUnion gs).NumVertices
    · rw [if_pos hsum] at hps
      injection hps with hps2
      have hrt := roundtrip_aux gs [] (by simpa using hwfs)
      simp only [List.nil_append] at hrt
      have : ps = gs := by
        rw [← hps2]
        exact hrt
      rw [this] at hp
      exact wf_invariant p (hwfs p hp)
    · rw [if_neg hsum] at hps
      cases hps

/-- Witness for C10 at the example graphs of the specification. -/
theorem c10_edge_invariant_witness :
    (buildGraph 2 [(0, 1), (1, 0)]).WellFormed
    ∧ (∀ h ∈ [buildGraph 3 [(0, 1), (1, 2)], buildGraph 2 [(0, 1)]],
        h.WellFormed)
    ∧ (LineGraph (buildGraph 2 [(0, 1), (1, 0)]) false).EdgeInvariant
    ∧ (DisjointUnion [buildGraph 3 [(0, 1), (1, 2)],
        buildGraph 2 [(0, 1)]]).EdgeInvariant :=
  ⟨by decide, by decide,
   (c10_edge_invariant [buildGraph 3 [(0, 1), (1, 2)], buildGraph 2 [(0, 1)]]
     (buildGraph 2 [(0, 1), (1, 0)]) false (by decide) (by decide)).1,
   (c10_edge_invariant [buildGraph 3 [(0, 1), (1, 2)], buildGraph 2 [(0, 1)]]
     (buildGraph 2 [(0, 1), (1, 0)]) false (by decide) (by decide)).2.1⟩

/-! ### CSR partition characterization -/

/-- Position `i` of the CSR partition loop, with the accumulators made
explicit: the piece starts at the prefix sum of the earlier sizes and
its edge offset is the total edge count consumed by the earlier
pieces. -/
theorem csrPartitionAux_getElem (bg : CSR) : ∀ (sizes : List Nat) (st ce i : Nat),
    i < sizes.length →
    (csrPartitionAux bg st ce sizes)[i]? =
      some (csrPartitionPiece bg (st + (sizes.take i).sum) (sizes.getD i 0)
        (ce + ((List.range i).map (fun j =>
          bg.indptr.getD (st + (sizes.take (j + 1)).sum) 0 -
            bg.indptr.getD (st + (sizes.take j).sum) 0)).sum)) := by
  intro sizes
  induction sizes with
  | nil => intro st ce i hi; simp at hi
  | cons sz rest ih =>
    intro st ce i hi
    rw [show csrPartitionAux bg st ce (sz :: rest) =
      csrPartitionPiece bg st sz ce :: csrPartitionAux bg (st + sz)
        (ce + (bg.indptr.getD (st + sz) 0 - bg.indptr.getD st 0)) rest from rfl]
    cases i with
    | zero =>
      rw [List.getElem?_cons_zero]
      simp
    | succ k =>
      rw [List.getElem?_cons_succ]
      rw [ih (st + sz) _ k (by simpa using hi)]
      congr 2
      · simp only [List.take_succ_cons, List.sum_cons]
        omega
      · simp only [List.range_succ_eq_map, List.map_cons, List.sum_cons,
          List.map_map]
        have hzero : bg.indptr.getD (st + (List.take 1 (sz :: rest)).sum) 0 -
            bg.indptr.getD (st + (List.take 0 (sz :: rest)).sum) 0 =
            bg.indptr.getD (st + sz) 0 - bg.indptr.getD st 0 := by
          simp
        rw [hzero]
        have hcong : List.map ((fun j =>
            bg.indptr.getD (st + (List.take (j + 1) (sz :: rest)).sum) 0 -
              bg.indptr.getD (st + (List.take j (sz :: rest)).sum) 0) ∘ Nat.succ)
            (List.range k) =
            List.map (fun j =>
              bg.indptr.getD (st + sz + (rest.take (j + 1)).sum) 0 -
                bg.indptr.getD (st + sz + (rest.take j).sum) 0)
            (List.range k) := by
          apply List.map_congr_left
          intro j _
          simp only [Function.comp_apply, Nat.succ_eq_add_one,
            List.take_succ_cons, List.sum_cons]
          congr 2 <;> omega
        rw [hcong]
        omega

/-- C4: under the size-sum check and the closure precondition (every
neighbor referenced by a partition's rows lies in that partition's
vertex range), partition `i` of the CSR `DisjointPartitionBySizes` has
`indptr[l - start] = indptr_parent[l] - indptr_parent[start]` on
`(start, end]`, `indices` equal to the parent slice relabeled by
`-start` (hence in the local range), and `edge_ids` equal to the parent
slice shifted down by the edge count consumed by the prior
partitions. -/
theorem c4_csr_partition_slices (bg : CSR) (sizes : List Nat)
    (hsum : sizes.sum = bg.NumVertices)
    (hclosed : ∀ i, i < sizes.length →
      ∀ x ∈ (bg.indices.drop (bg.indptr.getD ((sizes.take i).sum) 0)).take
        (bg.indptr.getD ((sizes.take i).sum + sizes.getD i 0) 0 -
          bg.indptr.getD ((sizes.take i).sum) 0),
        (sizes.take i).sum ≤ x ∧ x < (sizes.take i).sum + sizes.getD i 0) :
    ∀ i, i < sizes.length →
    ∀ ps, DisjointPartitionBySizesCSR bg sizes = Except.ok ps →
    ∃ p, ps[i]? = some p
      ∧ (∀ l, (sizes.take i).sum < l → l ≤ (sizes.take i).sum + sizes.getD i 0 →
          p.indptr.getD (l - (sizes.take i).sum) 0 =
            bg.indptr.getD l 0 - bg.indptr.getD ((sizes.take i).sum) 0)
      ∧ p.indices = ((bg.indices.drop (bg.indptr.getD ((sizes.take i).sum) 0)).take
          (bg.indptr.getD ((sizes.take i).sum + sizes.getD i 0) 0 -
            bg.indptr.getD ((sizes.take i).sum) 0)).map
          (fun x => x - (sizes.take i).sum)
      ∧ (∀ y ∈ p.indices, y < sizes.getD i 0)
      ∧ p.edge_ids = ((bg.edge_ids.drop (bg.indptr.getD ((sizes.take i).sum) 0)).take
          (bg.indptr.getD ((sizes.take i).sum + sizes.getD i 0) 0 -
            bg.indptr.getD ((sizes.take i).sum) 0)).map
          (fun x => x - ((List.range i).map (fun j =>
            bg.indptr.getD ((sizes.take (j + 1)).sum) 0 -
              bg.indptr.getD ((sizes.take j).sum) 0)).sum) := by
  intro i hi ps hps
  unfold DisjointPartitionBySizesCSR at hps
  rw [if_pos (by rw [hsum])] at hps
  injection hps with hps2
  have hget := csrPartitionAux_getElem bg sizes 0 0 i hi
  simp only [Nat.zero_add] at hget
  rw [← hps2] at *
  refine ⟨_, hget, ?_, rfl, ?_, rfl⟩
  · intro l hl1 hl2
    simp only [csrPartitionPiece]
    obtain ⟨k, hk⟩ : ∃ k, l - (sizes.take i).sum = k + 1 :=
      ⟨l - (sizes.take i).sum - 1, by omega⟩
    rw [hk, List.getD_cons_succ]
    rw [getD_map_range _ _ _ _ (by omega : k < sizes.getD i 0)]
    congr 2
    omega
  · intro y hy
    simp only [csrPartitionPiece, List.mem_map] at hy
    obtain ⟨x, hx, rfl⟩ := hy
    have := hclosed i hi x hx
    omega

/-- Witness for C4 at a concrete two-block CSR. -/
theorem c4_csr_partition_slices_witness :
    (([2, 1] : List Nat).sum = (CSR.mk [0, 1, 2, 4] [1, 0, 2, 2] [0, 1, 2, 3]).NumVertices)
    ∧ (∀ i, i < ([2, 1] : List Nat).length →
      ∀ x ∈ ((CSR.mk [0, 1, 2, 4] [1, 0, 2, 2] [0, 1, 2, 3]).indices.drop
          ((CSR.mk [0, 1, 2, 4] [1, 0, 2, 2] [0, 1, 2, 3]).indptr.getD
            ((([2, 1] : List Nat).take i).sum) 0)).take
        ((CSR.mk [0, 1, 2, 4] [1, 0, 2, 2] [0, 1, 2, 3]).indptr.getD
            ((([2, 1] : List Nat).take i).sum + ([2, 1] : List Nat).getD i 0) 0 -
          (CSR.mk [0, 1, 2, 4] [1, 0, 2, 2] [0, 1, 2, 3]).indptr.getD
            ((([2, 1] : List Nat).take i).sum) 0),
        (([2, 1] : List Nat).take i).sum ≤ x ∧
          x < (([2, 1] : List Nat).take i).sum + ([2, 1] : List Nat).getD i 0)
    ∧ (∃ p, (csrPartitionAux (CSR.mk [0, 1, 2, 4] [1, 0, 2, 2] [0, 1, 2, 3]) 0 0
        [2, 1])[0]? = some p ∧ p.indices = [1, 0] ∧ p.edge_ids = [0, 1]) := by
  refine ⟨by decide, by decide, ?_⟩
  obtain ⟨p, hp, hptr, hind, hloc, heid⟩ :=
    c4_csr_partition_slices (CSR.mk [0, 1, 2, 4] [1, 0, 2, 2] [0, 1, 2, 3])
      [2, 1] (by decide) (by decide) 0 (by decide)
      (csrPartitionAux (CSR.mk [0, 1, 2, 4] [1, 0, 2, 2] [0, 1, 2, 3]) 0 0 [2, 1])
      (by rw [DisjointPartitionBySizesCSR, if_pos (by decide)])
  exact ⟨p, hp, by rw [hind]; decide, by rw [heid]; decide⟩
